import Mathlib

/-!
# Verification of the merk Merkle AVL tree (JavaScript prototypes)

This development gives a shallow embedding of the merk repository's
tree engine and proof verifier and proves/refutes the specification
claims about them.

Byte strings are modelled as `List Nat` (each entry a byte value).
The repository hashes with Node's `crypto` SHA-256 (`src/common.js`);
we implement SHA-256 (FIPS 180-4) executably below so that concrete
hash values can be computed inside proofs.  The implementation is
checked against the digests hard-coded in the repository's own test
suite (`test/node.js`).
-/

set_option maxRecDepth 100000

namespace Merk

/-- Bytes are lists of natural numbers; every entry is `< 256` in practice. -/
abbrev Bytes := List Nat

/-- Truncation to a 32-bit word. -/
def w32 (x : Nat) : Nat := x % 4294967296

/-- Right-rotation of a 32-bit word by `n` places (`0 < n < 32`). -/
def rotr (n x : Nat) : Nat := x / 2 ^ n + x % 2 ^ n * 2 ^ (32 - n)

/-- Bitwise complement of a 32-bit word. -/
def not32 (x : Nat) : Nat := 4294967295 - x

/-- `Ch(x,y,z)` from FIPS 180-4. -/
def sha256Ch (x y z : Nat) : Nat := Nat.xor (Nat.land x y) (Nat.land (not32 x) z)

/-- `Maj(x,y,z)` from FIPS 180-4. -/
def sha256Maj (x y z : Nat) : Nat :=
  Nat.xor (Nat.xor (Nat.land x y) (Nat.land x z)) (Nat.land y z)

/-- `Σ₀` from FIPS 180-4. -/
def bigSig0 (x : Nat) : Nat := Nat.xor (Nat.xor (rotr 2 x) (rotr 13 x)) (rotr 22 x)

/-- `Σ₁` from FIPS 180-4. -/
def bigSig1 (x : Nat) : Nat := Nat.xor (Nat.xor (rotr 6 x) (rotr 11 x)) (rotr 25 x)

/-- `σ₀` from FIPS 180-4. -/
def smallSig0 (x : Nat) : Nat := Nat.xor (Nat.xor (rotr 7 x) (rotr 18 x)) (x / 2 ^ 3)

/-- `σ₁` from FIPS 180-4. -/
def smallSig1 (x : Nat) : Nat := Nat.xor (Nat.xor (rotr 17 x) (rotr 19 x)) (x / 2 ^ 10)

/-- The 64 SHA-256 round constants. -/
def sha256K : List Nat :=
  [1116352408, 1899447441, 3049323471, 3921009573, 961987163, 1508970993,
   2453635748, 2870763221, 3624381080, 310598401, 607225278, 1426881987,
   1925078388, 2162078206, 2614888103, 3248222580, 3835390401, 4022224774,
   264347078, 604807628, 770255983, 1249150122, 1555081692, 1996064986,
   2554220882, 2821834349, 2952996808, 3210313671, 3336571891, 3584528711,
   113926993, 338241895, 666307205, 773529912, 1294757372, 1396182291,
   1695183700, 1986661051, 2177026350, 2456956037, 2730485921, 2820302411,
   3259730800, 3345764771, 3516065817, 3600352804, 4094571909, 275423344,
   430227734, 506948616, 659060556, 883997877, 958139571, 1322822218,
   1537002063, 1747873779, 1955562222, 2024104815, 2227730452, 2361852424,
   2428436474, 2756734187, 3204031479, 3329325298]

/-- The eight SHA-256 initial hash values. -/
def sha256IV : List Nat :=
  [1779033703, 3144134277, 1013904242, 2773480762,
   1359893119, 2600822924, 528734635, 1541459225]

/-- `k` big-endian bytes of `n` (most significant first). -/
def bytesBE : Nat → Nat → List Nat
  | 0, _ => []
  | k + 1, n => bytesBE k (n / 256) ++ [n % 256]

/-- Group a byte list into 32-bit big-endian words. -/
def toWords : List Nat → List Nat
  | a :: b :: c :: d :: rest => (((a * 256 + b) * 256 + c) * 256 + d) :: toWords rest
  | _ => []

/-- SHA-256 padding: `0x80`, zeros, and the 64-bit big-endian bit length. -/
def sha256Pad (msg : List Nat) : List Nat :=
  msg ++ 0x80 :: List.replicate ((119 - msg.length % 64) % 64) 0 ++ bytesBE 8 (msg.length * 8)

/-- Extend a 16-word message block, `n` more words of schedule to produce. -/
def sha256Extend : Nat → List Nat → List Nat
  | 0, ws => ws
  | n + 1, ws =>
    let i := ws.length
    let w := w32 (smallSig1 (ws.getD (i - 2) 0) + ws.getD (i - 7) 0 +
                  smallSig0 (ws.getD (i - 15) 0) + ws.getD (i - 16) 0)
    sha256Extend n (ws ++ [w])

/-- Working state of the SHA-256 compression function. -/
structure Sha256State where
  a : Nat
  b : Nat
  c : Nat
  d : Nat
  e : Nat
  f : Nat
  g : Nat
  h : Nat
deriving DecidableEq

/-- One SHA-256 round, consuming a `(round constant, schedule word)` pair. -/
def sha256Round (st : Sha256State) (kw : Nat × Nat) : Sha256State :=
  let t1 := st.h + bigSig1 st.e + sha256Ch st.e st.f st.g + kw.1 + kw.2
  let t2 := bigSig0 st.a + sha256Maj st.a st.b st.c
  { a := w32 (t1 + t2), b := st.a, c := st.b, d := st.c,
    e := w32 (st.d + t1), f := st.e, g := st.f, h := st.g }

/-- Compress one 64-byte block into the running hash state. -/
def sha256Compress (hs : List Nat) (block : List Nat) : List Nat :=
  let ws := sha256Extend 48 (toWords block)
  let st0 : Sha256State :=
    { a := hs.getD 0 0, b := hs.getD 1 0, c := hs.getD 2 0, d := hs.getD 3 0,
      e := hs.getD 4 0, f := hs.getD 5 0, g := hs.getD 6 0, h := hs.getD 7 0 }
  let st := (sha256K.zip ws).foldl sha256Round st0
  [w32 (hs.getD 0 0 + st.a), w32 (hs.getD 1 0 + st.b),
   w32 (hs.getD 2 0 + st.c), w32 (hs.getD 3 0 + st.d),
   w32 (hs.getD 4 0 + st.e), w32 (hs.getD 5 0 + st.f),
   w32 (hs.getD 6 0 + st.g), w32 (hs.getD 7 0 + st.h)]

/-- Fold the compression function over `n` 64-byte blocks of a padded message. -/
def sha256Core : Nat → List Nat → List Nat → List Nat
  | 0, hs, _ => hs
  | n + 1, hs, bytes => sha256Core n (sha256Compress hs (bytes.take 64)) (bytes.drop 64)

/-- SHA-256 of a byte string, as 32 bytes.  Models `sha256` from `src/common.js`. -/
def sha256 (msg : List Nat) : List Nat :=
  let p := sha256Pad msg
  ((sha256Core (p.length / 64) sha256IV p).map (bytesBE 4)).flatten

/-! ## Byte-string encoding and ordering

`varstruct.VarString(VarInt)` encodes a string as an unsigned LEB128
varint length followed by the raw bytes.  JavaScript compares keys with
`<`, which on the byte strings used throughout the repository is
lexicographic comparison. -/

/-- Unsigned LEB128 with explicit fuel (10 bytes covers every JS integer). -/
def varintAux : Nat → Nat → Bytes
  | 0, n => [n % 128]
  | fuel + 1, n => if n < 128 then [n] else (n % 128 + 128) :: varintAux fuel (n / 128)

/-- Unsigned LEB128 varint, as produced by the `varint` npm package. -/
def varint (n : Nat) : Bytes := varintAux 10 n

/-- `VarString.encode`: varint length prefix followed by the bytes. -/
def vstr (s : Bytes) : Bytes := varint s.length ++ s

/-- Lexicographic strict order on byte strings (JavaScript `<` on keys). -/
def blt : Bytes → Bytes → Bool
  | [], [] => false
  | [], _ :: _ => true
  | _ :: _, [] => false
  | a :: as, b :: bs => if a < b then true else if b < a then false else blt as bs

/-! ## The tree engine

Embedding of the key-addressed `Node` class (the second, most complete
revision recorded in `src/node.js`: `setChild`/`rebalance`/`rotate`/
`put`/`delete`) and of the corresponding `Tree` (`src/tree.js`).  A
node's backing-store links (`leftKey`/`rightKey`) are represented
directly by subtrees; an empty link (`''`) is `JTree.nil`.  The cached
fields `kvHash`, `hash`, `leftHeight` and `rightHeight` are stored
exactly as the JavaScript stores them and are updated only where the
JavaScript updates them. -/

/-- The 32-byte zero digest (`nullHash`), the absent-child sentinel. -/
def nullHash : Bytes := List.replicate 32 0

/-- The persisted fields of one node (besides its child links). -/
structure NodeRec where
  key : Bytes
  value : Bytes
  kvHash : Bytes
  hash : Bytes
  leftHeight : Nat
  rightHeight : Nat
deriving DecidableEq, Repr

/-- A (sub)tree: either an empty link or a node with two child links. -/
inductive JTree where
  | nil
  | node (d : NodeRec) (l r : JTree)
deriving DecidableEq, Repr

/-- `calculateKVHash`: `H(enc(key) ∥ enc(value))`. -/
def kvHashOf (k v : Bytes) : Bytes := sha256 (vstr k ++ vstr v)

/-- The hash contributed by a child slot: the child's cached `hash`, or
`nullHash` when the slot is empty (`leftChild ? leftChild.hash : nullHash`). -/
def hashOf : JTree → Bytes
  | .nil => nullHash
  | .node d _ _ => d.hash

/-- `calculateHash`: `H(left_hash ∥ right_hash ∥ kv_hash)`. -/
def nodeHashOf (l r : JTree) (kv : Bytes) : Bytes := sha256 (hashOf l ++ hashOf r ++ kv)

/-- `height()`: `max(leftHeight, rightHeight) + 1` (0 for an empty link,
though the code never asks an empty link for its height this way). -/
def ht : JTree → Nat
  | .nil => 0
  | .node d _ _ => max d.leftHeight d.rightHeight + 1

/-- The height recorded by `setChild` for a child slot.  An absent child
is replaced by `nullNode`, whose `height()` is `1` — not `0` — so a slot
whose child has been removed keeps a recorded height of `1`. -/
def chHeight : JTree → Nat
  | .nil => 1
  | .node d _ _ => max d.leftHeight d.rightHeight + 1

/-- `balance()`: `rightHeight - leftHeight`. -/
def balanceI (d : NodeRec) : Int := (d.rightHeight : Int) - (d.leftHeight : Int)

/-- The first half of `setChild`: install the child link and record its
height (before any balance check or hash recomputation). -/
def linkChild (d : NodeRec) (l r : JTree) (isLeft : Bool) (c : JTree) :
    NodeRec × JTree × JTree :=
  if isLeft then ({ d with leftHeight := chHeight c }, c, r)
  else ({ d with rightHeight := chHeight c }, l, c)

/-- `setChild(…, rebalance = false)`: install the child, skip the balance
check, recompute this node's hash from its (new) children. -/
def setChildNR (d : NodeRec) (l r : JTree) (isLeft : Bool) (c : JTree) : JTree :=
  let p := linkChild d l r isLeft c
  .node { p.1 with hash := nodeHashOf p.2.1 p.2.2 p.1.kvHash } p.2.1 p.2.2

/-- `rotate`: promote the `isLeft` child; its far grandchild subtree is
reattached to this node (`this.setChild(left, grandChild, false)`), and
this node becomes the child's other child
(`child.setChild(!left, this, false)`).  Hashes are recomputed bottom-up
by the two inner `setChild` calls. -/
def rotate (d : NodeRec) (l r : JTree) (isLeft : Bool) : JTree :=
  match if isLeft then l else r with
  | .nil => .node d l r   -- unreachable under the AVL invariant (the JS would throw)
  | .node cd cl cr =>
    let grand := if isLeft then cr else cl
    setChildNR cd cl cr (!isLeft) (setChildNR d l r isLeft grand)

/-- `rotate` viewed as acting on a whole (nonempty) tree. -/
def rotateT : JTree → Bool → JTree
  | .nil, _ => .nil
  | .node d l r, isLeft => rotate d l r isLeft

/-- `rebalance`: `let left = this.balance() < 0` picks the heavy side;
a double rotation is performed first when that child leans the opposite
way (`childRightHeavy` when left-heavy, `childLeftHeavy` when
right-heavy).  The JS body is parametric in `left`; it is written out
here once per value of `left`. -/
def rebalance (d : NodeRec) (l r : JTree) : JTree :=
  if balanceI d < 0 then
    match l with
    | .nil => .node d l r   -- unreachable under the AVL invariant (the JS would throw)
    | .node cd cl cr =>
      if 0 < balanceI cd then
        rotateT (setChildNR d l r true (rotate cd cl cr false)) true
      else rotate d l r true
  else
    match r with
    | .nil => .node d l r   -- unreachable under the AVL invariant (the JS would throw)
    | .node cd cl cr =>
      if balanceI cd < 0 then
        rotateT (setChildNR d l r false (rotate cd cl cr true)) false
      else rotate d l r false

/-- `setChild(…, rebalance = true)` (the default): install the child and
its height, rebalance if the recorded balance leaves `[-1, 1]`, otherwise
recompute the hash in place. -/
def setChild (d : NodeRec) (l r : JTree) (isLeft : Bool) (c : JTree) : JTree :=
  let p := linkChild d l r isLeft c
  if 1 < (balanceI p.1).natAbs then rebalance p.1 p.2.1 p.2.2
  else setChildNR d l r isLeft c

/-- The `Node` constructor on fresh key/value properties: heights start
at 0 and `kvHash`/`hash` are computed (with no children attached). -/
def newNode (k v : Bytes) : NodeRec :=
  let kv := kvHashOf k v
  { key := k, value := v, kvHash := kv,
    hash := sha256 (nullHash ++ nullHash ++ kv), leftHeight := 0, rightHeight := 0 }

/-- `Node.put`: update in place on a key match (recomputing `kvHash` but —
exactly as the JavaScript does — *not* this node's own `hash`), otherwise
descend and re-link the mutated child with `setChild`.  The JS
distinguishes an empty child link (`setChild(left, node)` with the fresh
node) from a live one (recurse, then `setChild(left, newChild)`); since
`nodePut .nil k v` *is* the fresh node, both are `setChild … (nodePut
child k v)` here. -/
def nodePut : JTree → Bytes → Bytes → JTree
  | .nil, k, v => .node (newNode k v) .nil .nil
  | .node d l r, k, v =>
    if k = d.key then .node { d with value := v, kvHash := kvHashOf k v } l r
    else if blt k d.key then setChild d l r true (nodePut l k v)
    else setChild d l r false (nodePut r k v)

/-- Errors a `delete` can raise. -/
inductive DelErr where
  | emptyTree   -- `Tree is empty`
  | notFound    -- `Key "…" not found`
  | crash       -- a TypeError from `successor.put(tx, otherNode)` (swapped arguments)
deriving DecidableEq, Repr

/-- `Node.delete`.  A leaf is removed outright.  For an inner node the
taller recorded side is chosen as successor; if the other child link is
live the JavaScript calls `successor.put(tx, otherNode)` with its two
arguments swapped, which always throws a `TypeError` before anything is
written (modelled as `DelErr.crash`); likewise when the chosen successor
link is empty (a possibility because removed children leave a recorded
height of 1) the JavaScript dereferences `null`. -/
def nodeDel : JTree → Bytes → Except DelErr JTree
  | .nil, _ => .error .notFound   -- an empty child link: `Key "…" not found`
  | .node d l r, k =>
    if k = d.key then
      if l = JTree.nil ∧ r = JTree.nil then pure JTree.nil
      else
        let isLeft := d.rightHeight < d.leftHeight
        let succ := if isLeft then l else r
        let other := if isLeft then r else l
        match other with
        | .node _ _ _ => .error .crash
        | .nil =>
          match succ with
          | .nil => .error .crash
          | .node sd sl sr => pure (.node sd sl sr)
    else if blt k d.key then
      match nodeDel l k with
      | .error e => .error e
      | .ok c2 => .ok (setChild d l r true c2)
    else
      match nodeDel r k with
      | .error e => .error e
      | .ok c2 => .ok (setChild d l r false c2)

/-- `Tree.put`: an empty tree gets the fresh node as root, otherwise the
root's `put` runs and its successor becomes the new root. -/
def treePut (t : JTree) (k v : Bytes) : JTree :=
  match t with
  | .nil => .node (newNode k v) .nil .nil
  | .node d l r => nodePut (.node d l r) k v

/-- `Tree.del`: throws `Tree is empty` on an empty tree, otherwise the
root's `delete` runs and its successor becomes the new root. -/
def treeDel (t : JTree) (k : Bytes) : Except DelErr JTree :=
  match t with
  | .nil => .error .emptyTree
  | .node d l r => nodeDel (.node d l r) k

/-- One caller-level operation. -/
inductive Op where
  | put (k v : Bytes)
  | del (k : Bytes)
deriving DecidableEq, Repr

/-- Apply one operation.  A delete that throws is a no-op on the tree:
`Tree.del` only commits its staged transaction (and only re-points
`:root`) after `delete` returns. -/
def applyOp (t : JTree) : Op → JTree
  | .put k v => treePut t k v
  | .del k => match treeDel t k with
    | .ok t2 => t2
    | .error _ => t

/-- The state after a sequence of operations from the empty tree. -/
def applyOps (ops : List Op) : JTree := ops.foldl applyOp .nil

/-- `Tree.rootHash`: the root node's cached hash, or `null` when empty. -/
def rootHash : JTree → Option Bytes
  | .nil => none
  | .node d _ _ => some d.hash

/-- The in-order key/value listing of a tree. -/
def kvList : JTree → List (Bytes × Bytes)
  | .nil => []
  | .node d l r => kvList l ++ (d.key, d.value) :: kvList r

/-- The in-order key listing of a tree. -/
def keyList (t : JTree) : List Bytes := (kvList t).map Prod.fst

/-- ASCII bytes of a string literal, for concrete test inputs (all the
concrete keys and values used below are ASCII, where the UTF-8 bytes are
the character codes). -/
def bytes (s : String) : Bytes := s.data.map Char.toNat

/-! ## Read path and accessors -/

/-- `Node.search`: descend by comparison; when the needed child link is
empty return the last visited node. -/
def searchT : JTree → Bytes → Option NodeRec
  | .nil, _ => none
  | .node d l r, k =>
    if k = d.key then some d
    else if blt k d.key then
      match l with
      | .nil => some d
      | .node dl ll rl => searchT (.node dl ll rl) k
    else
      match r with
      | .nil => some d
      | .node dr lr rr => searchT (.node dr lr rr) k

/-- Result of a `Tree.get`. -/
inductive GetResult where
  | nullVal            -- the tree is empty: `get` returns `null`
  | found (v : Bytes)  -- the key's value
  | errNotFound        -- `Key "…" not found` is thrown
deriving DecidableEq, Repr

/-- `Tree.get` (the search-based revision of `src/tree.js`, identical in
`part_001`): `null` when there is no root; otherwise search, and throw
when the node found does not carry the requested key. -/
def treeGet : JTree → Bytes → GetResult
  | .nil, _ => .nullVal
  | .node d l r, k =>
    match searchT (.node d l r) k with
    | none => .errNotFound
    | some e => if e.key = k then .found e.value else .errNotFound

/-- The subtree rooted at the node carrying `k`, following the search
descent. -/
def findSub : JTree → Bytes → Option JTree
  | .nil, _ => none
  | .node d l r, k =>
    if k = d.key then some (.node d l r)
    else if blt k d.key then
      match l with
      | .nil => none
      | .node dl ll rl => findSub (.node dl ll rl) k
    else
      match r with
      | .nil => none
      | .node dr lr rr => findSub (.node dr lr rr) k

/-- The root node's key, if any. -/
def rootKey : JTree → Option Bytes
  | .nil => none
  | .node d _ _ => some d.key

/-- Whether some node of the tree carries key `k` (no order assumption). -/
def containsB : JTree → Bytes → Bool
  | .nil, _ => false
  | .node d l r, k => k == d.key || containsB l k || containsB r k

/-! ## Invariant predicates -/

/-- The balance part of the spec invariant: every node satisfies
`|right_height − left_height| ≤ 1` on its recorded heights. -/
def Balanced : JTree → Prop
  | .nil => True
  | .node d l r =>
    (d.leftHeight ≤ d.rightHeight + 1 ∧ d.rightHeight ≤ d.leftHeight + 1) ∧
    Balanced l ∧ Balanced r

/-- Consistency of one recorded child height with the child link: a live
child's recorded height is its `height()`; an empty link records 0 (never
occupied) or 1 (vacated by a delete or rotation, because `nullNode`'s
`height()` is 1). -/
def SlotOk (h : Nat) : JTree → Prop
  | .nil => h ≤ 1
  | .node d _ _ => h = max d.leftHeight d.rightHeight + 1

/-- Recorded heights consistent and every balance within `[-1, 1]`. -/
def AvlOk : JTree → Prop
  | .nil => True
  | .node d l r =>
    SlotOk d.leftHeight l ∧ SlotOk d.rightHeight r ∧
    (d.leftHeight ≤ d.rightHeight + 1 ∧ d.rightHeight ≤ d.leftHeight + 1) ∧
    AvlOk l ∧ AvlOk r

/-- Hash consistency (spec invariant 4), decidably: every node's
`kv_hash` is `H(enc(key) ∥ enc(value))` and its `hash` is
`H(left_hash ∥ right_hash ∥ kv_hash)`. -/
def hashOk : JTree → Bool
  | .nil => true
  | .node d l r =>
    d.kvHash == kvHashOf d.key d.value && d.hash == nodeHashOf l r d.kvHash &&
    hashOk l && hashOk r

/-- A "childless ghost leaning node": no children but recorded heights
`(1,0)` or `(0,1)` (a vacated slot records height 1).  Such a node is the
one configuration on which a double rotation would dereference a missing
grandchild; the mutation lemmas show it never becomes the heavy child of
a rebalance. -/
def Ghost2 : JTree → Prop
  | .node d .nil .nil =>
    (d.leftHeight = 1 ∧ d.rightHeight = 0) ∨ (d.leftHeight = 0 ∧ d.rightHeight = 1)
  | _ => False

/-- The hash-relevant contents of a tree: keys, values and arrangement,
with the cached hashes and recorded heights stripped. -/
inductive Shape where
  | nil
  | node (k v : Bytes) (l r : Shape)
deriving DecidableEq, Repr

/-- Strip a tree to its `Shape`. -/
def shape : JTree → Shape
  | .nil => .nil
  | .node d l r => .node d.key d.value (shape l) (shape r)

/-- The root hash a `Shape` ought to have, by the hash recurrence. -/
def shapeHash : Shape → Bytes
  | .nil => nullHash
  | .node k v l r => sha256 (shapeHash l ++ shapeHash r ++ kvHashOf k v)

/-- `freshOps t ops`: along the run of `ops` from `t`, no `put` ever hits
a key already present (no in-place update happens). -/
def freshOps : JTree → List Op → Bool
  | _, [] => true
  | t, op :: rest =>
    (match op with
     | .put k _ => !containsB t k
     | .del _ => true) && freshOps (applyOp t op) rest

/-- Every key of the tree satisfies `p`. -/
def allKeysB : JTree → (Bytes → Bool) → Bool
  | .nil, _ => true
  | .node d l r, p => p d.key && allKeysB l p && allKeysB r p

/-- BST order (spec invariant 1): left keys strictly below, right keys
strictly above, at every node. -/
def Ordered : JTree → Bool
  | .nil => true
  | .node d l r =>
    allKeysB l (fun x => blt x d.key) && allKeysB r (fun x => blt d.key x) &&
    Ordered l && Ordered r

/-! ## The ID-addressed revision (first revision in `src/node.js`)

Its `setChild` never rebalances (the balance check only logs
`should balance`), so it coincides with `setChild(…, rebalance=false)`
of the later revision, i.e. with `setChildNR`.  Its `putNode` refuses
duplicate keys, and its `delete` promotes a successor with a correctly
ordered `successor.putNode(otherNode)` call, so two-child deletion
actually completes in this revision. -/

/-- Errors of the ID-addressed `putNode`. -/
inductive PutErr where
  | dupKey   -- `Duplicate key "…"`
deriving DecidableEq, Repr

/-- `Node.putNode` (ID-addressed revision): attach a node — together
with whatever subtree hangs off it — at its search position.  Throws on
a duplicate key. -/
def putNodeV1 : JTree → JTree → Except PutErr JTree
  | .nil, sub => pure sub   -- an empty child link: the node is attached here as-is
  | .node d l r, sub =>
    match sub with
    | .nil => pure (.node d l r)   -- never reached: callers pass a node
    | .node sd _ _ =>
      if sd.key = d.key then .error .dupKey
      else if blt sd.key d.key then
        match putNodeV1 l sub with
        | .error e => .error e
        | .ok l2 => .ok (setChildNR d l r true l2)
      else
        match putNodeV1 r sub with
        | .error e => .error e
        | .ok r2 => .ok (setChildNR d l r false r2)

/-- Errors of the ID-addressed `delete`. -/
inductive DelErrV1 where
  | notFound
  | crash      -- `successor` is `null` (a vacated slot recorded height 1)
  | dupKey     -- propagated from `putNode` (impossible on an ordered tree)
deriving DecidableEq, Repr

/-- `Node.delete` (ID-addressed revision, `src/node.js` first revision):
a leaf is removed; otherwise the side with the strictly greater recorded
height is chosen (`let left = this.leftHeight > this.rightHeight`, so an
equal-height tie chooses the *right* child), the other child is put under
the successor, and the successor takes this node's position. -/
def nodeDelV1 : JTree → Bytes → Except DelErrV1 JTree
  | .nil, _ => .error .notFound   -- an empty child link: `Key "…" not found`
  | .node d l r, k =>
    if k = d.key then
      if l = JTree.nil ∧ r = JTree.nil then pure JTree.nil
      else
        let isLeft := d.rightHeight < d.leftHeight
        let succ := if isLeft then l else r
        let other := if isLeft then r else l
        match succ with
        | .nil => .error .crash
        | .node sd sl sr =>
          match other with
          | .nil => pure (.node sd sl sr)
          | .node od ol orr =>
            match putNodeV1 (.node sd sl sr) (.node od ol orr) with
            | .ok s2 => pure s2
            | .error _ => .error .dupKey
    else if blt k d.key then
      match nodeDelV1 l k with
      | .error e => .error e
      | .ok c2 => .ok (setChildNR d l r true c2)
    else
      match nodeDelV1 r k with
      | .error e => .error e
      | .ok c2 => .ok (setChildNR d l r false c2)

/-- `Tree.put` of the ID-addressed revision (insert-only). -/
def treePutV1 (t : JTree) (k v : Bytes) : Except PutErr JTree :=
  match t with
  | .nil => pure (.node (newNode k v) .nil .nil)
  | .node d l r => putNodeV1 (.node d l r) (.node (newNode k v) .nil .nil)

/-- Whether an `Except` result is a success. -/
def exceptOk {ε α : Type} : Except ε α → Bool
  | .ok _ => true
  | .error _ => false

/-- Extract a successful tree result (used only to build concrete trees). -/
def okOr {ε : Type} : Except ε JTree → JTree
  | .ok t => t
  | .error _ => .nil

/-- A concrete ID-addressed tree: `put b`, `put a`, `put c` — the root `b`
has two children of equal recorded height. -/
def v1abc : JTree :=
  okOr (treePutV1 (okOr (treePutV1 (okOr (treePutV1 .nil (bytes "b") (bytes "B")))
    (bytes "a") (bytes "A"))) (bytes "c") (bytes "C"))

/-- The stored record of the node carrying key `k`, if any. -/
def recAt (t : JTree) (k : Bytes) : Option NodeRec :=
  match findSub t k with
  | some (.node d _ _) => some d
  | _ => none

/-- A minimal two-children configuration with equal recorded heights
(the hash caches are irrelevant to the successor choice). -/
def v1TieWitness : JTree :=
  .node { key := [2], value := [], kvHash := [], hash := [],
          leftHeight := 1, rightHeight := 1 }
    (.node { key := [1], value := [], kvHash := [], hash := [],
             leftHeight := 0, rightHeight := 0 } .nil .nil)
    (.node { key := [3], value := [], kvHash := [], hash := [],
             leftHeight := 0, rightHeight := 0 } .nil .nil)

/-- The result of deleting the root of `v1TieWitness`. -/
def v1TieResult : JTree := okOr (nodeDelV1 v1TieWitness [2])

/-! ## The proof verifier (`verify.js`, recorded as `part_002`)

The verifier hashes with `ripemd160(sha256(…))` and a 20-byte null
digest.  The hash function's internals are irrelevant to every claim
about `verify`'s control flow, so the composed hash is a parameter `H2`
throughout (theorems hold for the real hash by instantiation; witnesses
instantiate `H2` concretely).  The JavaScript compares the derived root
hash with `expectedRootHash` as hex strings; byte-string equality is
equivalent.  The JSON result assembly (`parse`, `keyToPath`, `access`
from `./json.js`/`./common.js`, files not in the repository snapshot) is
abstracted: a successful verification returns the raw key/value data the
assembly would consume. -/

def nullHash20 : Bytes := List.replicate 20 0

mutual
/-- A proof node's child: `null`, a pre-hashed subtree (a base64 string
in JS), or an inline object. -/
inductive PChild where
  | null
  | hash (h : Bytes)
  | tree (t : PTree)
/-- A proof node: `{key?, value, kvHash?, left?, right?}`. -/
inductive PTree where
  | node (key : Option Bytes) (value : Bytes) (kvHash : Option Bytes)
      (left right : PChild)
end

mutual
/-- `childHash`: null digest, the given hash, or the object's hash. -/
def childHash (H2 : Bytes → Bytes) : PChild → Bytes
  | .null => nullHash20
  | .hash h => h
  | .tree t => getHash H2 t
/-- `getHash`: `H2(childHash(left) ∥ childHash(right) ∥ kvHash)`, with
`kvHash` recomputed from `key`/`value` when not supplied.  (The JS throws
a TypeError when a key-less node lacks `kvHash`; such nodes are outside
the verifier's domain and never appear below, so the missing key is read
as the empty string.) -/
def getHash (H2 : Bytes → Bytes) : PTree → Bytes
  | .node key value kvHash l r =>
    let kv := match kvHash with
      | some h => h
      | none => H2 (vstr (key.getD []) ++ vstr value)
    H2 (childHash H2 l ++ childHash H2 r ++ kv)
end

/-- `path.reduce((a, b) => a === b)` — JavaScript `reduce` with no initial
accumulator: the accumulator starts as the first element and each later
element is compared to the running *result* (not "all equal"). -/
def pathEdge : List Bool → Bool
  | [] => true
  | b :: rest => rest.foldl (fun a c => a == c) b

/-- One entry of `flatten`'s output. -/
structure FlatNode where
  key : Option Bytes
  value : Bytes
  isEdge : Bool
deriving DecidableEq, Repr

/-- Whether a child slot is `null` (a hash string child is not). -/
def isNullC : PChild → Bool
  | .null => true
  | _ => false

mutual
/-- Recurse into a child only when it is an inline object. -/
def flattenC : PChild → List Bool → List FlatNode
  | .tree t, path => flattenT t path
  | _, _ => []
/-- `flatten`: in-order listing; `isEdge` is `(path.length === 0 ||
path.reduce((a,b) => a === b)) && left == null && right == null`. -/
def flattenT : PTree → List Bool → List FlatNode
  | .node key value _ l r, path =>
    flattenC l (path ++ [false]) ++
    ⟨key, value, (path.isEmpty || pathEdge path) && isNullC l && isNullC r⟩ ::
    flattenC r (path ++ [true])
end

/-- A node's key, reading a missing key as the empty (falsy) string. -/
def keyOf (n : FlatNode) : Bytes := n.key.getD []

/-- JS truthiness of `node.key` (absent or empty string is falsy). -/
def hasKeyB (n : FlatNode) : Bool :=
  match n.key with
  | some k => !k.isEmpty
  | none => false

/-- The tail of the first contiguous keyed run. -/
def takeKeyed : List FlatNode → List FlatNode
  | [] => []
  | n :: rest => if hasKeyB n then n :: takeKeyed rest else []

/-- `valueNodes`: skip unkeyed nodes, then take the first contiguous run
of keyed nodes (the loop `break`s at the first unkeyed node after the
run starts). -/
def valueNodesOf : List FlatNode → List FlatNode
  | [] => []
  | n :: rest => if hasKeyB n then n :: takeKeyed rest else valueNodesOf rest

/-- JavaScript string `>=` on byte strings. -/
def bge (a b : Bytes) : Bool := !(blt a b)

/-- JavaScript string `<=` on byte strings. -/
def ble (a b : Bytes) : Bool := !(blt b a)

/-- The verifier's errors. -/
inductive VerifyErr where
  | rootMismatch    -- `Proof does not match expected root hash`
  | expectedRoot    -- `Expected node to be root object`
  | rangeGapFirst   -- `First key greater than beginning of range`
  | rangeGapLast    -- `Last key less than end of range`
  | parentNotFound  -- `Parent node not found`
  | crash           -- a TypeError (e.g. `valueNodes` empty, parent missing)
deriving DecidableEq, Repr

/-- A successful verification's data (JSON assembly abstracted). -/
inductive VOut where
  | singleRoot (value : Bytes)            -- single-node tree: the root value
  | parentVal (value : Bytes)             -- the enclosing parent object's value
  | range (kvs : List (Bytes × Bytes))    -- the in-range key/value nodes
deriving DecidableEq, Repr

/-- `checkRange`: the first key-bearing node must not lie at or past the
start of the range unless it is an edge node, and then the last must not
lie at or before the end unless it is an edge node. -/
def checkRange (fromK toK : Bytes) (vns : List FlatNode) : Except VerifyErr Unit :=
  match vns.head?, vns.getLast? with
  | some f, some l =>
    if bge (keyOf f) fromK && !f.isEdge then .error .rangeGapFirst
    else if ble (keyOf l) toK && !l.isEdge then .error .rangeGapLast
    else .ok ()
  | _, _ => .error .crash

/-- The parent-object search: first key match wins; a key past the
parent key throws; falling off the list dereferences `undefined`. -/
def findParent (vns : List FlatNode) (parentKey : Bytes) : Except VerifyErr FlatNode :=
  match vns with
  | [] => .error .crash
  | n :: rest =>
    if keyOf n = parentKey then .ok n
    else if blt parentKey (keyOf n) then .error .parentNotFound
    else findParent rest parentKey

/-- The byte of `'.'`. -/
def dotB : Bytes := [46]

/-- The byte of `'/'`. -/
def slashB : Bytes := [47]

/-- `query.split('.')`. -/
def splitDotAux : Bytes → Bytes → List Bytes
  | [], acc => [acc.reverse]
  | c :: rest, acc =>
    if c = 46 then acc.reverse :: splitDotAux rest [] else splitDotAux rest (c :: acc)

/-- `query.split('.')`. -/
def splitDot (q : Bytes) : List Bytes := splitDotAux q []

/-- `parts.join('.')`. -/
def joinDot : List Bytes → Bytes
  | [] => []
  | [x] => x
  | x :: rest => x ++ dotB ++ joinDot rest

/-- The body of `verify` after the root-hash comparison, over the
flattened node list. -/
def verifyRest (fromK toK q : Bytes) (nodes : List FlatNode) : Except VerifyErr VOut :=
  match nodes with
  | [n] => if n.key = some dotB then .ok (.singleRoot n.value) else .error .expectedRoot
  | _ =>
    let vns := valueNodesOf nodes
    let resultNodes := vns.filter (fun n => bge (keyOf n) fromK && ble (keyOf n) toK)
    if resultNodes.isEmpty then
      let parentKey := dotB ++ joinDot (splitDot q).dropLast
      match checkRange parentKey (parentKey ++ dotB) vns with
      | .error e => .error e
      | .ok _ =>
        match findParent vns parentKey with
        | .error e => .error e
        | .ok pn => .ok (.parentVal pn.value)
    else
      match checkRange fromK toK vns with
      | .error e => .error e
      | .ok _ => .ok (.range (resultNodes.map (fun n => (keyOf n, n.value))))

/-- `verify(expectedRootHash, proof, query)`. -/
def verify (H2 : Bytes → Bytes) (expected : Bytes) (proof : PTree) (q : Bytes) :
    Except VerifyErr VOut :=
  if getHash H2 proof ≠ expected then .error .rootMismatch
  else verifyRest (dotB ++ q) (if q = [] then slashB else dotB ++ q ++ slashB) q
    (flattenT proof [])

/-- A concrete two-node proof: the root carries key `".a"` and an inline
left child carrying key `"."`. -/
def c7proof : PTree :=
  .node (some (dotB ++ bytes "a")) (bytes "1") none
    (.tree (.node (some dotB) (bytes "0") none .null .null)) .null

/-! ## The persisted store (key-addressed revision)

A store-level embedding of the same key-addressed `Node` class, keeping
the backing store (`db`) explicit: nodes are persisted under their key
with `leftKey`/`rightKey`/`parentKey` link fields, exactly the fields the
codec stores.  Mutations write through a transaction that is committed on
success; `Node.get`, `edge` and `step` read the committed store
(`tx = db`).  Recursions that descend the stored tree carry fuel (the
kernel cannot see their termination through the store); every theorem
below evaluates on concrete runs where the fuel is ample. -/

/-- The persisted fields of a stored node (the codec's fields). -/
structure SNode where
  value : Bytes
  kvHash : Bytes
  hash : Bytes
  leftHeight : Nat
  rightHeight : Nat
  leftKey : Bytes
  rightKey : Bytes
  parentKey : Bytes
deriving DecidableEq, Repr

/-- An in-memory node object: its key and its fields. -/
abbrev NodeObj := Bytes × SNode

/-- The backing store: key ↦ encoded node. -/
abbrev Store := List (Bytes × SNode)

/-- `db.get`. -/
def sGet : Store → Bytes → Option SNode
  | [], _ => none
  | (k, n) :: rest, key => if k = key then some n else sGet rest key

/-- `tx.put`: replace or append. -/
def sPutN : Store → Bytes → SNode → Store
  | [], key, n => [(key, n)]
  | (k, m) :: rest, key, n =>
    if k = key then (k, n) :: rest else (k, m) :: sPutN rest key n

/-- `tx.del`. -/
def sDelN (s : Store) (key : Bytes) : Store :=
  s.filter (fun p => !(p.1 == key))

/-- `getNode`: the empty key is `null`; a missing record makes `db.get`
throw (surfaced as `.error`). -/
def getNodeS (s : Store) (k : Bytes) : Except Unit (Option NodeObj) :=
  if k = [] then .ok none
  else match sGet s k with
    | some n => .ok (some (k, n))
    | none => .error ()

/-- The in-memory first half of `setChild`: point the child link at the
child and record its height (a `null` child becomes `nullNode`: key `''`,
`height()` 1), and set the child's `parentKey` — in memory only. -/
def linkS (t : NodeObj) (left : Bool) (child : Option NodeObj) :
    SNode × Option NodeObj :=
  match child with
  | some c =>
    ((if left then
        { t.2 with leftKey := c.1, leftHeight := max c.2.leftHeight c.2.rightHeight + 1 }
      else
        { t.2 with rightKey := c.1, rightHeight := max c.2.leftHeight c.2.rightHeight + 1 }),
     some (c.1, { c.2 with parentKey := t.1 }))
  | none =>
    ((if left then { t.2 with leftKey := [], leftHeight := 1 }
      else { t.2 with rightKey := [], rightHeight := 1 }), none)

/-- `child ? child.hash : nullHash` (`nullNode.hash` is also the null
digest). -/
def objHash : Option NodeObj → Bytes
  | some c => c.2.hash
  | none => nullHash

/-- The second half of `setChild` when no rebalance triggers: read the
untouched side from the store, recompute this node's hash, save this
node and then the child (`nullNode.save` is a no-op). -/
def finishS (s : Store) (tk : Bytes) (td : SNode) (left : Bool)
    (child : Option NodeObj) : Except Unit (Store × NodeObj) :=
  match (if left then .ok child else getNodeS s td.leftKey :
      Except Unit (Option NodeObj)) with
  | .error e => .error e
  | .ok lc =>
    match (if left then getNodeS s td.rightKey else .ok child :
        Except Unit (Option NodeObj)) with
    | .error e => .error e
    | .ok rc =>
      let td2 := { td with hash := sha256 (objHash lc ++ objHash rc ++ td.kvHash) }
      let s2 := sPutN s tk td2
      let s3 := match child with
        | some c => sPutN s2 c.1 c.2
        | none => s2
      .ok (s3, (tk, td2))

mutual
/-- `setChild(tx, left, child)` with the default `rebalance = true`. -/
def setChildS : Nat → Store → NodeObj → Bool → Option NodeObj →
    Except Unit (Store × NodeObj)
  | 0, _, _, _, _ => .error ()
  | fuel + 1, s, t, left, child =>
    let p := linkS t left child
    if 1 < ((p.1.rightHeight : Int) - (p.1.leftHeight : Int)).natAbs then
      rebalanceS fuel s (t.1, p.1)
    else
      finishS s t.1 p.1 left p.2

/-- `rebalance`: the child (and its balance) are re-read from the store;
the in-memory `parentKey` assignment of the outer `setChild` has not been
saved at this point. -/
def rebalanceS : Nat → Store → NodeObj → Except Unit (Store × NodeObj)
  | 0, _, _ => .error ()
  | fuel + 1, s, t =>
    let left := t.2.rightHeight < t.2.leftHeight
    match getNodeS s (if left then t.2.leftKey else t.2.rightKey) with
    | .error e => .error e
    | .ok none => .error ()   -- `child.balance()` on null
    | .ok (some child) =>
      let double := if left then child.2.leftHeight < child.2.rightHeight
        else child.2.rightHeight < child.2.leftHeight
      if double then
        match rotateS fuel s child (!left) with
        | .error e => .error e
        | .ok (s2, succ) =>
          let p := linkS t left (some succ)
          match finishS s2 t.1 p.1 left p.2 with
          | .error e => .error e
          | .ok (s3, t2) => rotateS fuel s3 t2 left
      else rotateS fuel s t left

/-- `rotate`. -/
def rotateS : Nat → Store → NodeObj → Bool → Except Unit (Store × NodeObj)
  | 0, _, _, _ => .error ()
  | fuel + 1, s, t, left =>
    match getNodeS s (if left then t.2.leftKey else t.2.rightKey) with
    | .error e => .error e
    | .ok none => .error ()   -- `child.child` on null
    | .ok (some child) =>
      match getNodeS s (if !left then child.2.leftKey else child.2.rightKey) with
      | .error e => .error e
      | .ok grand =>
        let p := linkS t left grand
        match finishS s t.1 p.1 left p.2 with
        | .error e => .error e
        | .ok (s2, t2) =>
          let child2 : NodeObj := (child.1, { child.2 with parentKey := [] })
          let p2 := linkS child2 (!left) (some t2)
          finishS s2 child2.1 p2.1 (!left) p2.2
end

/-- `Node.put`: update in place on a key match (recomputing `kvHash` but
not `hash`, and saving), otherwise descend and re-link with `setChild`. -/
def putS : Nat → Store → NodeObj → NodeObj → Except Unit (Store × NodeObj)
  | 0, _, _, _ => .error ()
  | fuel + 1, s, t, n =>
    if n.1 = t.1 then
      let td := { t.2 with value := n.2.value, kvHash := sha256 (vstr t.1 ++ vstr n.2.value) }
      .ok (sPutN s t.1 td, (t.1, td))
    else
      let left := blt n.1 t.1
      match getNodeS s (if left then t.2.leftKey else t.2.rightKey) with
      | .error e => .error e
      | .ok none => setChildS (fuel + 1) s t left (some n)
      | .ok (some child) =>
        match putS fuel s child n with
        | .error e => .error e
        | .ok (s2, nc) => setChildS (fuel + 1) s2 t left (some nc)

/-- Errors of the store-level `delete`. -/
inductive DelSErr where
  | notFound
  | crash
  | fuel
deriving DecidableEq, Repr

/-- `Node.delete`.  On promoting a one-child successor into a deleted
node's position, `successor.parentKey = this.parentKey` mutates the
in-memory object only: the successor is *not* saved, so its stored
`parentKey` still names the deleted node. -/
def deleteS : Nat → Store → NodeObj → Bytes → Except DelSErr (Store × Option NodeObj)
  | 0, _, _, _ => .error .fuel
  | fuel + 1, s, t, key =>
    if key = t.1 then
      if t.2.leftKey = [] ∧ t.2.rightKey = [] then
        .ok (sDelN s t.1, none)
      else
        let left := t.2.rightHeight < t.2.leftHeight
        match getNodeS s (if left then t.2.leftKey else t.2.rightKey),
            getNodeS s (if left then t.2.rightKey else t.2.leftKey) with
        | .ok succ, .ok other =>
          match other with
          | some _ => .error .crash   -- `successor.put(tx, otherNode)`: swapped arguments
          | none =>
            match succ with
            | none => .error .crash   -- null successor
            | some sc =>
              .ok (sDelN s t.1, some (sc.1, { sc.2 with parentKey := t.2.parentKey }))
        | _, _ => .error .crash
    else
      let left := blt key t.1
      match getNodeS s (if left then t.2.leftKey else t.2.rightKey) with
      | .error _ => .error .crash
      | .ok none => .error .notFound
      | .ok (some child) =>
        match deleteS fuel s child key with
        | .error e => .error e
        | .ok (s2, nc) =>
          match setChildS (fuel + 1) s2 t left nc with
          | .error _ => .error .crash
          | .ok (s3, t2) => .ok (s3, some t2)

/-- The tree's state: the committed store, the `:root` pointer, and the
in-memory `_rootNode` object. -/
structure TState where
  store : Store
  rootKey : Bytes
  rootMem : Option NodeObj
deriving DecidableEq, Repr

/-- The `Node` constructor on fresh key/value props (store revision). -/
def newNodeS (k v : Bytes) : SNode :=
  let kv := sha256 (vstr k ++ vstr v)
  { value := v, kvHash := kv, hash := sha256 (nullHash ++ nullHash ++ kv),
    leftHeight := 0, rightHeight := 0, leftKey := [], rightKey := [],
    parentKey := [] }

/-- The empty tree. -/
def emptyTS : TState := { store := [], rootKey := [], rootMem := none }

/-- `Tree.put`: set a fresh root, or `put` under the root and re-point
`:root` at the successor. -/
def treePutS (fuel : Nat) (ts : TState) (k v : Bytes) : Except Unit TState :=
  match ts.rootMem with
  | none =>
    let n := newNodeS k v
    .ok { store := sPutN ts.store k n, rootKey := k, rootMem := some (k, n) }
  | some root =>
    match putS fuel ts.store root (k, newNodeS k v) with
    | .error e => .error e
    | .ok (s, succ) => .ok { store := s, rootKey := succ.1, rootMem := some succ }

/-- `Tree.del`: `delete` under the root and re-point `:root` at the
successor. -/
def treeDelS (fuel : Nat) (ts : TState) (k : Bytes) : Except DelSErr TState :=
  match ts.rootMem with
  | none => .error .crash   -- `Tree is empty`
  | some root =>
    match deleteS fuel ts.store root k with
    | .error e => .error e
    | .ok (s, some n) => .ok { store := s, rootKey := n.1, rootMem := some n }
    | .ok (s, none) => .ok { store := s, rootKey := [], rootMem := none }

/-- `edge(left)` over the committed store. -/
def edgeS : Nat → Store → NodeObj → Bool → Except Unit NodeObj
  | 0, _, _, _ => .error ()
  | fuel + 1, s, cur, left =>
    match getNodeS s (if left then cur.2.leftKey else cur.2.rightKey) with
    | .error e => .error e
    | .ok none => .ok cur
    | .ok (some child) => edgeS fuel s child left

/-- The backtracking loop of `step`: follow stored `parentKey` links
upward (a missing parent record makes `db.get` throw). -/
def backS : Nat → Store → Bytes → Bytes → Bool → Except Unit (Option NodeObj)
  | 0, _, _, _, _ => .error ()
  | fuel + 1, s, pk, selfKey, left =>
    match getNodeS s pk with
    | .error e => .error e
    | .ok none => .ok none
    | .ok (some cur) =>
      let skip := if left then blt selfKey cur.1 else blt cur.1 selfKey
      if skip then backS fuel s cur.2.parentKey selfKey left
      else .ok (some cur)

/-- `step(left)` reading the committed store (`tx = db`); `next()` is
`step(false)`. -/
def stepS (fuel : Nat) (s : Store) (t : NodeObj) (left : Bool) :
    Except Unit (Option NodeObj) :=
  match getNodeS s (if left then t.2.leftKey else t.2.rightKey) with
  | .error e => .error e
  | .ok (some child) =>
    match edgeS fuel s child (!left) with
    | .error e => .error e
    | .ok n => .ok (some n)
  | .ok none => backS fuel s t.2.parentKey t.1 left

/-- The state after `put a`, `put b`, `delete a` (each operation
completes and commits). -/
def c9state : TState :=
  match treePutS 10 emptyTS (bytes "a") (bytes "A") with
  | .ok t1 =>
    match treePutS 10 t1 (bytes "b") (bytes "B") with
    | .ok t2 =>
      match treeDelS 10 t2 (bytes "a") with
      | .ok t3 => t3
      | .error _ => emptyTS
    | .error _ => emptyTS
  | .error _ => emptyTS

/-! # Lemmas and theorems -/

/-- Sanity check against a FIPS 180-4 test vector. -/
example : sha256 [0x61, 0x62, 0x63] =
    [0xba, 0x78, 0x16, 0xbf, 0x8f, 0x01, 0xcf, 0xea, 0x41, 0x41, 0x40, 0xde,
     0x5d, 0xae, 0x22, 0x23, 0xb0, 0x03, 0x61, 0xa3, 0x96, 0x17, 0x7a, 0x9c,
     0xb4, 0x10, 0xff, 0x61, 0xf2, 0x00, 0x15, 0xad] := by decide

/-- The repository's own `create node` test: `kvHash` of `foo`/`bar`. -/
example : kvHashOf (bytes "foo") (bytes "bar") =
    [0x00, 0x5c, 0x04, 0x46, 0xea, 0x92, 0x2e, 0x10, 0x5f, 0xc1, 0xeb, 0x08,
     0x4c, 0x88, 0xea, 0x47, 0x24, 0x44, 0x4a, 0x42, 0xde, 0x49, 0xa5, 0x77,
     0x48, 0x24, 0x1d, 0xad, 0x50, 0xa2, 0xf3, 0x5d] := by decide

/-- The repository's own `save child node` test: root hash after
`put('foo','bar')` then `put('fo','bar')`. -/
example : rootHash (treePut (treePut .nil (bytes "foo") (bytes "bar")) (bytes "fo") (bytes "bar")) =
    some [0x91, 0xdb, 0x47, 0xed, 0xce, 0xc1, 0x00, 0x9d, 0x64, 0x17, 0xf4, 0xca,
          0x92, 0x53, 0x12, 0x22, 0x9f, 0x1c, 0xd4, 0x2b, 0xe5, 0x79, 0xc9, 0xe3,
          0xd5, 0x46, 0x66, 0xdd, 0x17, 0x2a, 0x5d, 0x36] := by decide

/-! ## Hash-consistency preservation -/

lemma hashOk_node {d : NodeRec} {l r : JTree} :
    hashOk (.node d l r) = true ↔
      d.kvHash = kvHashOf d.key d.value ∧ d.hash = nodeHashOf l r d.kvHash ∧
      hashOk l = true ∧ hashOk r = true := by
  simp [hashOk, and_assoc]

lemma hashOk_setChildNR {d : NodeRec} {l r : JTree} (b : Bool) {c : JTree}
    (hkv : d.kvHash = kvHashOf d.key d.value)
    (hl : hashOk l = true) (hr : hashOk r = true) (hc : hashOk c = true) :
    hashOk (setChildNR d l r b c) = true := by
  cases b <;> simp [setChildNR, linkChild, hashOk, hkv, hl, hr, hc]

lemma hashOk_rotate_ne {d : NodeRec} {l r : JTree} (b : Bool)
    (hkv : d.kvHash = kvHashOf d.key d.value)
    (hl : hashOk l = true) (hr : hashOk r = true)
    (hne : (if b then l else r) ≠ JTree.nil) :
    hashOk (rotate d l r b) = true := by
  cases b with
  | true =>
    cases l with
    | nil => simp at hne
    | node cd cl cr =>
      obtain ⟨h1, _, h3, h4⟩ := hashOk_node.mp hl
      simpa [rotate] using
        hashOk_setChildNR false h1 h3 h4 (hashOk_setChildNR true hkv hl hr h4)
  | false =>
    cases r with
    | nil => simp at hne
    | node cd cl cr =>
      obtain ⟨h1, _, h3, h4⟩ := hashOk_node.mp hr
      simpa [rotate] using
        hashOk_setChildNR true h1 h3 h4 (hashOk_setChildNR false hkv hl hr h3)

lemma hashOk_rotate_self {d : NodeRec} {l r : JTree}
    (h : hashOk (.node d l r) = true) (b : Bool) :
    hashOk (rotate d l r b) = true := by
  obtain ⟨h1, _, h3, h4⟩ := hashOk_node.mp h
  cases b with
  | true =>
    cases l with
    | nil => simpa [rotate] using h
    | node cd cl cr => exact hashOk_rotate_ne true h1 h3 h4 (by simp)
  | false =>
    cases r with
    | nil => simpa [rotate] using h
    | node cd cl cr => exact hashOk_rotate_ne false h1 h3 h4 (by simp)

lemma hashOk_rotateT {t : JTree} (h : hashOk t = true) (b : Bool) :
    hashOk (rotateT t b) = true := by
  cases t with
  | nil => simpa [rotateT] using h
  | node d l r => exact hashOk_rotate_self h b

lemma hashOk_rebalance {d : NodeRec} {l r : JTree}
    (hkv : d.kvHash = kvHashOf d.key d.value)
    (hl : hashOk l = true) (hr : hashOk r = true)
    (hne : (if balanceI d < 0 then l else r) ≠ JTree.nil) :
    hashOk (rebalance d l r) = true := by
  by_cases hb : balanceI d < 0
  · cases l with
    | nil => rw [if_pos hb] at hne; exact absurd rfl hne
    | node cd cl cr =>
      unfold rebalance; rw [if_pos hb]; dsimp only
      by_cases hd : 0 < balanceI cd
      · rw [if_pos hd]
        exact hashOk_rotateT
          (hashOk_setChildNR true hkv hl hr (hashOk_rotate_self hl false)) true
      · rw [if_neg hd]
        exact hashOk_rotate_ne true hkv hl hr (by simp)
  · cases r with
    | nil => rw [if_neg hb] at hne; exact absurd rfl hne
    | node cd cl cr =>
      unfold rebalance; rw [if_neg hb]; dsimp only
      by_cases hd : balanceI cd < 0
      · rw [if_pos hd]
        exact hashOk_rotateT
          (hashOk_setChildNR false hkv hl hr (hashOk_rotate_self hr true)) false
      · rw [if_neg hd]
        exact hashOk_rotate_ne false hkv hl hr (by simp)

lemma chHeight_pos (c : JTree) : 1 ≤ chHeight c := by
  cases c <;> simp [chHeight]

/-! ## Height and balance preservation -/

lemma slotOk_chHeight (c : JTree) : SlotOk (chHeight c) c := by
  cases c <;> simp [SlotOk, chHeight]

lemma chHeight_nil : chHeight JTree.nil = 1 := rfl

lemma chHeight_node (d : NodeRec) (l r : JTree) :
    chHeight (.node d l r) = max d.leftHeight d.rightHeight + 1 := rfl

lemma ht_nil : ht JTree.nil = 0 := rfl

lemma ht_node (d : NodeRec) (l r : JTree) :
    ht (.node d l r) = max d.leftHeight d.rightHeight + 1 := rfl

lemma avlOk_nil : AvlOk JTree.nil := trivial

lemma avlOk_node {d : NodeRec} {l r : JTree} :
    AvlOk (.node d l r) ↔
      SlotOk d.leftHeight l ∧ SlotOk d.rightHeight r ∧
      (d.leftHeight ≤ d.rightHeight + 1 ∧ d.rightHeight ≤ d.leftHeight + 1) ∧
      AvlOk l ∧ AvlOk r := Iff.rfl


lemma chHeight_eq_max (t : JTree) : chHeight t = max (ht t) 1 := by
  cases t with
  | nil => simp [chHeight, ht]
  | node d l r => simp [chHeight, ht]

lemma slotOk_chH_facts {h : Nat} {t : JTree} (hs : SlotOk h t) :
    h ≤ chHeight t ∧ chHeight t ≤ max h 1 := by
  cases t with
  | nil => simp [SlotOk] at hs; simp [chHeight]; omega
  | node d l r => simp [SlotOk] at hs; simp [chHeight]; omega

lemma ghost2_chH {t : JTree} (h : Ghost2 t) : chHeight t = 2 := by
  cases t with
  | nil => simp [Ghost2] at h
  | node d l r =>
    cases l with
    | node dl ll rl => simp [Ghost2] at h
    | nil =>
      cases r with
      | node dr lr rr => simp [Ghost2] at h
      | nil =>
        simp [Ghost2] at h
        rcases h with ⟨h1, h2⟩ | ⟨h1, h2⟩ <;> simp [chHeight, h1, h2]

lemma setChildNR_ne_nil (d : NodeRec) (l r : JTree) (b : Bool) (c : JTree) :
    setChildNR d l r b c ≠ JTree.nil := by
  cases b <;> simp [setChildNR, linkChild]

lemma rotate_ne_nil (d : NodeRec) (l r : JTree) (b : Bool) :
    rotate d l r b ≠ JTree.nil := by
  cases b with
  | true => cases l <;> simp [rotate, setChildNR_ne_nil, setChildNR, linkChild]
  | false => cases r <;> simp [rotate, setChildNR_ne_nil, setChildNR, linkChild]

lemma rebalance_ne_nil (d : NodeRec) (l r : JTree) :
    rebalance d l r ≠ JTree.nil := by
  unfold rebalance
  split
  · cases l with
    | nil => simp
    | node cd cl cr =>
      dsimp only
      split
      · cases hsc : setChildNR d (JTree.node cd cl cr) r true (rotate cd cl cr false) with
        | nil => exact absurd hsc (setChildNR_ne_nil _ _ _ _ _)
        | node d2 l2 r2 => simp [rotateT, rotate_ne_nil]
      · exact rotate_ne_nil d (JTree.node cd cl cr) r true
  · cases r with
    | nil => simp
    | node cd cl cr =>
      dsimp only
      split
      · cases hsc : setChildNR d l (JTree.node cd cl cr) false (rotate cd cl cr true) with
        | nil => exact absurd hsc (setChildNR_ne_nil _ _ _ _ _)
        | node d2 l2 r2 => simp [rotateT, rotate_ne_nil]
      · exact rotate_ne_nil d l (JTree.node cd cl cr) false

lemma setChild_ne_nil (d : NodeRec) (l r : JTree) (b : Bool) (c : JTree) :
    setChild d l r b c ≠ JTree.nil := by
  simp only [setChild]
  split
  · exact rebalance_ne_nil _ _ _
  · exact setChildNR_ne_nil d l r b c

lemma nodePut_ne_nil (t : JTree) (k v : Bytes) : nodePut t k v ≠ JTree.nil := by
  cases t with
  | nil => simp [nodePut]
  | node d l r =>
    rw [nodePut.eq_def]
    dsimp only
    split
    · simp
    · split
      · exact setChild_ne_nil _ _ _ _ _
      · exact setChild_ne_nil _ _ _ _ _

lemma setChildNR_notGhost2 (d : NodeRec) (l r : JTree) (b : Bool)
    {cd : NodeRec} {cl cr : JTree} :
    ¬ Ghost2 (setChildNR d l r b (.node cd cl cr)) := by
  cases b <;> simp [setChildNR, linkChild, Ghost2]

lemma setChildNR_avl (d : NodeRec) (l r : JTree) (b : Bool) (c : JTree)
    (hl : AvlOk l) (hr : AvlOk r) (hc : AvlOk c)
    (hsl : SlotOk d.leftHeight l) (hsr : SlotOk d.rightHeight r)
    (hb : if b then chHeight c ≤ d.rightHeight + 1 ∧ d.rightHeight ≤ chHeight c + 1
          else d.leftHeight ≤ chHeight c + 1 ∧ chHeight c ≤ d.leftHeight + 1) :
    AvlOk (setChildNR d l r b c) ∧
    ht (setChildNR d l r b c) =
      (if b then max (chHeight c) d.rightHeight else max d.leftHeight (chHeight c)) + 1 := by
  cases b with
  | true =>
    simp only [setChildNR, linkChild, if_true] at *
    refine ⟨⟨slotOk_chHeight c, hsr, ⟨hb.1, hb.2⟩, hc, hr⟩, ?_⟩
    simp [ht]
  | false =>
    simp only [setChildNR, linkChild, if_false, Bool.false_eq_true] at *
    refine ⟨⟨hsl, slotOk_chHeight c, ⟨hb.1, hb.2⟩, hl, hc⟩, ?_⟩
    simp [ht]

lemma rebalance_avl_r (d : NodeRec) (l r : JTree)
    (hsl : SlotOk d.leftHeight l) (hsr : SlotOk d.rightHeight r)
    (hal : AvlOk l) (har : AvlOk r)
    (hbal : d.rightHeight = d.leftHeight + 2)
    (hg : Ghost2 r → 1 ≤ d.leftHeight) :
    AvlOk (rebalance d l r) ∧
    d.rightHeight ≤ ht (rebalance d l r) ∧ ht (rebalance d l r) ≤ d.rightHeight + 1 ∧
    ¬ Ghost2 (rebalance d l r) := by
  have hbI : ¬ balanceI d < 0 := by simp [balanceI]; omega
  cases r with
  | nil => simp [SlotOk] at hsr; omega
  | node cd cl cr =>
    obtain ⟨hscl, hscr, ⟨hcb1, hcb2⟩, hacl, hacr⟩ := avlOk_node.mp har
    have e1 : d.rightHeight = max cd.leftHeight cd.rightHeight + 1 := hsr
    unfold rebalance
    rw [if_neg hbI]
    dsimp only
    by_cases hdb : balanceI cd < 0
    · rw [if_pos hdb]
      have hdbn : cd.rightHeight < cd.leftHeight := by simp [balanceI] at hdb; omega
      cases cl with
      | nil =>
        exfalso
        have hA : cd.leftHeight ≤ 1 := hscl
        have hcrnil : cr = JTree.nil := by
          cases cr with
          | nil => rfl
          | node x y z =>
            have h2 : cd.rightHeight = max x.leftHeight x.rightHeight + 1 := hscr
            omega
        subst hcrnil
        refine absurd (hg ?_) (by omega)
        simp only [Ghost2]
        omega
      | node gd gl gr =>
        obtain ⟨hsgl, hsgr, ⟨hgb1, hgb2⟩, hagl, hagr⟩ := avlOk_node.mp hacl
        have e2 : cd.leftHeight = max gd.leftHeight gd.rightHeight + 1 := hscl
        obtain ⟨c1a, c1b⟩ := slotOk_chH_facts hsgl
        obtain ⟨c2a, c2b⟩ := slotOk_chH_facts hsgr
        have p1 := chHeight_pos gl
        have p2 := chHeight_pos gr
        simp [rotate, rotateT, setChildNR, linkChild, chHeight_node, chHeight_nil,
          ht_node, ht_nil, avlOk_node, avlOk_nil, Ghost2]
        repeat' apply And.intro
        all_goals first
          | assumption
          | exact slotOk_chHeight gl
          | exact slotOk_chHeight gr
          | exact slotOk_chHeight _
          | (simp only [SlotOk, chHeight_node, chHeight_nil]; try omega)
          | omega
    · rw [if_neg hdb]
      have hdbn : cd.leftHeight ≤ cd.rightHeight := by simp [balanceI] at hdb; omega
      obtain ⟨c1a, c1b⟩ := slotOk_chH_facts hscl
      have p1 := chHeight_pos cl
      simp [rotate, rotateT, setChildNR, linkChild, chHeight_node, chHeight_nil,
        ht_node, ht_nil, avlOk_node, avlOk_nil, Ghost2]
      repeat' apply And.intro
      all_goals first
        | assumption
        | exact slotOk_chHeight cl
        | exact slotOk_chHeight _
        | (simp only [SlotOk, chHeight_node, chHeight_nil]; try omega)
        | omega

lemma rebalance_avl_l (d : NodeRec) (l r : JTree)
    (hsl : SlotOk d.leftHeight l) (hsr : SlotOk d.rightHeight r)
    (hal : AvlOk l) (har : AvlOk r)
    (hbal : d.leftHeight = d.rightHeight + 2)
    (hg : Ghost2 l → 1 ≤ d.rightHeight) :
    AvlOk (rebalance d l r) ∧
    d.leftHeight ≤ ht (rebalance d l r) ∧ ht (rebalance d l r) ≤ d.leftHeight + 1 ∧
    ¬ Ghost2 (rebalance d l r) := by
  have hbI : balanceI d < 0 := by simp [balanceI]; omega
  cases l with
  | nil => simp [SlotOk] at hsl; omega
  | node cd cl cr =>
    obtain ⟨hscl, hscr, ⟨hcb1, hcb2⟩, hacl, hacr⟩ := avlOk_node.mp hal
    have e1 : d.leftHeight = max cd.leftHeight cd.rightHeight + 1 := hsl
    unfold rebalance
    rw [if_pos hbI]
    dsimp only
    by_cases hdb : 0 < balanceI cd
    · rw [if_pos hdb]
      have hdbn : cd.leftHeight < cd.rightHeight := by simp [balanceI] at hdb; omega
      cases cr with
      | nil =>
        exfalso
        have hA : cd.rightHeight ≤ 1 := hscr
        have hclnil : cl = JTree.nil := by
          cases cl with
          | nil => rfl
          | node x y z =>
            have h2 : cd.leftHeight = max x.leftHeight x.rightHeight + 1 := hscl
            omega
        subst hclnil
        refine absurd (hg ?_) (by omega)
        simp only [Ghost2]
        omega
      | node gd gl gr =>
        obtain ⟨hsgl, hsgr, ⟨hgb1, hgb2⟩, hagl, hagr⟩ := avlOk_node.mp hacr
        have e2 : cd.rightHeight = max gd.leftHeight gd.rightHeight + 1 := hscr
        obtain ⟨c1a, c1b⟩ := slotOk_chH_facts hsgl
        obtain ⟨c2a, c2b⟩ := slotOk_chH_facts hsgr
        have p1 := chHeight_pos gl
        have p2 := chHeight_pos gr
        simp [rotate, rotateT, setChildNR, linkChild, chHeight_node, chHeight_nil,
          ht_node, ht_nil, avlOk_node, avlOk_nil, Ghost2]
        repeat' apply And.intro
        all_goals first
          | assumption
          | exact slotOk_chHeight gl
          | exact slotOk_chHeight gr
          | exact slotOk_chHeight _
          | (simp only [SlotOk, chHeight_node, chHeight_nil]; try omega)
          | omega
    · rw [if_neg hdb]
      have hdbn : cd.rightHeight ≤ cd.leftHeight := by simp [balanceI] at hdb; omega
      obtain ⟨c1a, c1b⟩ := slotOk_chH_facts hscr
      have p1 := chHeight_pos cr
      simp [rotate, rotateT, setChildNR, linkChild, chHeight_node, chHeight_nil,
        ht_node, ht_nil, avlOk_node, avlOk_nil, Ghost2]
      repeat' apply And.intro
      all_goals first
        | assumption
        | exact slotOk_chHeight cr
        | exact slotOk_chHeight _
        | (simp only [SlotOk, chHeight_node, chHeight_nil]; try omega)
        | omega

lemma setChild_avl (d : NodeRec) (l r : JTree) (b : Bool) (c : JTree)
    (hsl : SlotOk d.leftHeight l) (hsr : SlotOk d.rightHeight r)
    (hal : AvlOk l) (har : AvlOk r) (hac : AvlOk c)
    (hd1 : chHeight c ≤ (if b then d.rightHeight else d.leftHeight) + 2)
    (hd2 : (if b then d.rightHeight else d.leftHeight) ≤ chHeight c + 2)
    (hgc : Ghost2 c → 1 ≤ (if b then d.rightHeight else d.leftHeight)) :
    AvlOk (setChild d l r b c) ∧
    (ht (setChild d l r b c) = max (chHeight c) (if b then d.rightHeight else d.leftHeight) + 1 ∨
      ((chHeight c + 2 = (if b then d.rightHeight else d.leftHeight) ∨
        (if b then d.rightHeight else d.leftHeight) + 2 = chHeight c) ∧
       max (chHeight c) (if b then d.rightHeight else d.leftHeight) ≤ ht (setChild d l r b c) ∧
       ht (setChild d l r b c) ≤ max (chHeight c) (if b then d.rightHeight else d.leftHeight) + 1)) ∧
    (Ghost2 (setChild d l r b c) → c = JTree.nil) := by
  cases b with
  | true =>
    simp only [if_true] at hd1 hd2 hgc ⊢
    simp only [setChild, linkChild, if_true]
    split
    · rename_i hb
      by_cases hb2 : balanceI { d with leftHeight := chHeight c } < 0
      · have hL : chHeight c = d.rightHeight + 2 := by
          simp only [balanceI] at hb hb2; omega
        obtain ⟨hA, hB, hC, hD⟩ := rebalance_avl_l { d with leftHeight := chHeight c } c r
          (slotOk_chHeight c) hsr hac har hL hgc
        have hB' : chHeight c ≤ ht (rebalance { d with leftHeight := chHeight c } c r) := hB
        have hC' : ht (rebalance { d with leftHeight := chHeight c } c r) ≤ chHeight c + 1 := hC
        exact ⟨hA, Or.inr ⟨Or.inr (by omega), by omega, by omega⟩, fun h2 => absurd h2 hD⟩
      · have hR : d.rightHeight = chHeight c + 2 := by
          simp only [balanceI] at hb hb2; omega
        obtain ⟨hA, hB, hC, hD⟩ := rebalance_avl_r { d with leftHeight := chHeight c } c r
          (slotOk_chHeight c) hsr hac har hR (fun _ => chHeight_pos c)
        have hB' : d.rightHeight ≤ ht (rebalance { d with leftHeight := chHeight c } c r) := hB
        have hC' : ht (rebalance { d with leftHeight := chHeight c } c r) ≤ d.rightHeight + 1 := hC
        exact ⟨hA, Or.inr ⟨Or.inl (by omega), by omega, by omega⟩, fun h2 => absurd h2 hD⟩
    · rename_i hb
      have hnb : chHeight c ≤ d.rightHeight + 1 ∧ d.rightHeight ≤ chHeight c + 1 := by
        simp only [balanceI] at hb; omega
      obtain ⟨hA, hH⟩ := setChildNR_avl d l r true c hal har hac hsl hsr hnb
      simp only [if_true] at hH
      refine ⟨hA, Or.inl (by omega), fun hG => ?_⟩
      cases c with
      | nil => rfl
      | node cd cl cr => exact absurd hG (setChildNR_notGhost2 d l r true)
  | false =>
    simp only [if_false, Bool.false_eq_true] at hd1 hd2 hgc ⊢
    simp only [setChild, linkChild, if_false, Bool.false_eq_true]
    split
    · rename_i hb
      by_cases hb2 : balanceI { d with rightHeight := chHeight c } < 0
      · have hL : d.leftHeight = chHeight c + 2 := by
          simp only [balanceI] at hb hb2; omega
        obtain ⟨hA, hB, hC, hD⟩ := rebalance_avl_l { d with rightHeight := chHeight c } l c
          hsl (slotOk_chHeight c) hal hac hL (fun _ => chHeight_pos c)
        have hB' : d.leftHeight ≤ ht (rebalance { d with rightHeight := chHeight c } l c) := hB
        have hC' : ht (rebalance { d with rightHeight := chHeight c } l c) ≤ d.leftHeight + 1 := hC
        exact ⟨hA, Or.inr ⟨Or.inl (by omega), by omega, by omega⟩, fun h2 => absurd h2 hD⟩
      · have hR : chHeight c = d.leftHeight + 2 := by
          simp only [balanceI] at hb hb2; omega
        obtain ⟨hA, hB, hC, hD⟩ := rebalance_avl_r { d with rightHeight := chHeight c } l c
          hsl (slotOk_chHeight c) hal hac hR hgc
        have hB' : chHeight c ≤ ht (rebalance { d with rightHeight := chHeight c } l c) := hB
        have hC' : ht (rebalance { d with rightHeight := chHeight c } l c) ≤ chHeight c + 1 := hC
        exact ⟨hA, Or.inr ⟨Or.inr (by omega), by omega, by omega⟩, fun h2 => absurd h2 hD⟩
    · rename_i hb
      have hnb : d.leftHeight ≤ chHeight c + 1 ∧ chHeight c ≤ d.leftHeight + 1 := by
        simp only [balanceI] at hb; omega
      obtain ⟨hA, hH⟩ := setChildNR_avl d l r false c hal har hac hsl hsr hnb
      simp only [if_false, Bool.false_eq_true] at hH
      refine ⟨hA, Or.inl (by omega), fun hG => ?_⟩
      cases c with
      | nil => rfl
      | node cd cl cr => exact absurd hG (setChildNR_notGhost2 d l r false)

lemma ht_chHeight_cases (t : JTree) :
    (t = JTree.nil ∧ ht t = 0 ∧ chHeight t = 1) ∨ ht t = chHeight t := by
  cases t with
  | nil => exact Or.inl ⟨rfl, rfl, rfl⟩
  | node d l r => exact Or.inr rfl

lemma nodePut_avl (t : JTree) (k v : Bytes) (ha : AvlOk t) :
    AvlOk (nodePut t k v) ∧
    chHeight t ≤ chHeight (nodePut t k v) ∧
    chHeight (nodePut t k v) ≤ ht t + 1 ∧
    (Ghost2 (nodePut t k v) → Ghost2 t) := by
  induction t with
  | nil =>
    refine ⟨?_, ?_, ?_, ?_⟩ <;>
      simp [nodePut, newNode, AvlOk, SlotOk, chHeight, ht, Ghost2]
  | node d l r ihl ihr =>
    obtain ⟨hsl, hsr, ⟨hb1, hb2⟩, hal, har⟩ := avlOk_node.mp ha
    rw [nodePut.eq_def]
    dsimp only
    by_cases hk : k = d.key
    · rw [if_pos hk]
      refine ⟨avlOk_node.mpr ⟨hsl, hsr, ⟨hb1, hb2⟩, hal, har⟩,
        Nat.le_refl _, Nat.le_succ _, ?_⟩
      intro hG
      cases l <;> cases r <;> simpa [Ghost2] using hG
    · rw [if_neg hk]
      by_cases hblt : blt k d.key = true
      · rw [if_pos hblt]
        obtain ⟨iA, iB, iC, iG⟩ := ihl hal
        have p1 := chHeight_pos l
        have hslot : (d.leftHeight ≤ 1 ∧ ht l = 0 ∧ chHeight l = 1) ∨
            (d.leftHeight = ht l ∧ ht l = chHeight l) := by
          cases hl' : l with
          | nil => left; rw [hl'] at hsl; exact ⟨hsl, rfl, rfl⟩
          | node ld ll lr => right; rw [hl'] at hsl; exact ⟨hsl, rfl⟩
        rcases hslot with ⟨hA, hl0, hl1⟩ | ⟨hA, hle⟩
        all_goals {
          have hd1 : chHeight (nodePut l k v) ≤ d.rightHeight + 2 := by omega
          have hd2 : d.rightHeight ≤ chHeight (nodePut l k v) + 2 := by omega
          have hgc : Ghost2 (nodePut l k v) → 1 ≤ d.rightHeight := by
            intro hG
            have h2 := ghost2_chH (iG hG)
            omega
          obtain ⟨sA, sH, sG⟩ := setChild_avl d l r true (nodePut l k v)
            hsl hsr hal har iA hd1 hd2 hgc
          simp only [if_true] at sH
          have hcc : chHeight (setChild d l r true (nodePut l k v)) =
              ht (setChild d l r true (nodePut l k v)) := by
            rcases ht_chHeight_cases (setChild d l r true (nodePut l k v)) with ⟨he, -, -⟩ | he
            · exact absurd he (setChild_ne_nil d l r true (nodePut l k v))
            · exact he.symm
          refine ⟨sA, ?_, ?_, fun hG => absurd (sG hG) (nodePut_ne_nil l k v)⟩ <;>
            (simp only [chHeight_node, ht_node]
             rw [hcc]
             rcases sH with hEq | ⟨hdir | hdir, hlow, hhigh⟩ <;> omega) }
      · rw [if_neg hblt]
        obtain ⟨iA, iB, iC, iG⟩ := ihr har
        have p1 := chHeight_pos r
        have hslot : (d.rightHeight ≤ 1 ∧ ht r = 0 ∧ chHeight r = 1) ∨
            (d.rightHeight = ht r ∧ ht r = chHeight r) := by
          cases hr' : r with
          | nil => left; rw [hr'] at hsr; exact ⟨hsr, rfl, rfl⟩
          | node rd rl rr => right; rw [hr'] at hsr; exact ⟨hsr, rfl⟩
        rcases hslot with ⟨hA, hr0, hr1⟩ | ⟨hA, hre⟩
        all_goals {
          have hd1 : chHeight (nodePut r k v) ≤ d.leftHeight + 2 := by omega
          have hd2 : d.leftHeight ≤ chHeight (nodePut r k v) + 2 := by omega
          have hgc : Ghost2 (nodePut r k v) → 1 ≤ d.leftHeight := by
            intro hG
            have h2 := ghost2_chH (iG hG)
            omega
          obtain ⟨sA, sH, sG⟩ := setChild_avl d l r false (nodePut r k v)
            hsl hsr hal har iA hd1 hd2 hgc
          simp only [if_false, Bool.false_eq_true] at sH
          have hcc : chHeight (setChild d l r false (nodePut r k v)) =
              ht (setChild d l r false (nodePut r k v)) := by
            rcases ht_chHeight_cases (setChild d l r false (nodePut r k v)) with ⟨he, -, -⟩ | he
            · exact absurd he (setChild_ne_nil d l r false (nodePut r k v))
            · exact he.symm
          refine ⟨sA, ?_, ?_, fun hG => absurd (sG hG) (nodePut_ne_nil r k v)⟩ <;>
            (simp only [chHeight_node, ht_node]
             rw [hcc]
             rcases sH with hEq | ⟨hdir | hdir, hlow, hhigh⟩ <;> omega) }

set_option maxHeartbeats 2000000 in
lemma nodeDel_avl {t : JTree} (k : Bytes) (ha : AvlOk t) {t2 : JTree}
    (hdel : nodeDel t k = .ok t2) :
    AvlOk t2 ∧ chHeight t2 ≤ chHeight t ∧ chHeight t ≤ chHeight t2 + 1 := by
  induction t generalizing t2 with
  | nil => simp [nodeDel] at hdel
  | node d l r ihl ihr =>
    obtain ⟨hsl, hsr, ⟨hb1, hb2⟩, hal, har⟩ := avlOk_node.mp ha
    rw [nodeDel.eq_def] at hdel
    simp only [] at hdel
    by_cases hk : k = d.key
    · rw [if_pos hk] at hdel
      by_cases hleaf : l = JTree.nil ∧ r = JTree.nil
      · rw [if_pos hleaf] at hdel
        cases hdel
        obtain ⟨hl0, hr0⟩ := hleaf
        subst hl0; subst hr0
        have hA : d.leftHeight ≤ 1 := hsl
        have hB : d.rightHeight ≤ 1 := hsr
        exact ⟨trivial, by simp [chHeight_node, chHeight_nil],
          by simp only [chHeight_node, chHeight_nil]; omega⟩
      · rw [if_neg hleaf] at hdel
        by_cases hlt : d.rightHeight < d.leftHeight
        · simp only [if_pos hlt] at hdel
          cases hor : r with
          | node od ol orr => rw [hor] at hdel; cases hdel
          | nil =>
            rw [hor] at hdel
            cases hsu : l with
            | nil => rw [hsu] at hdel; cases hdel
            | node sd sl sr =>
              rw [hsu] at hdel
              cases hdel
              rw [hsu] at hsl hal
              rw [hor] at hsr
              have hlh : d.leftHeight = max sd.leftHeight sd.rightHeight + 1 := hsl
              have hrh : d.rightHeight ≤ 1 := hsr
              exact ⟨hal, by simp only [chHeight_node]; omega,
                by simp only [chHeight_node]; omega⟩
        · simp only [if_neg hlt] at hdel
          cases hor : l with
          | node od ol orr => rw [hor] at hdel; cases hdel
          | nil =>
            rw [hor] at hdel
            cases hsu : r with
            | nil => rw [hsu] at hdel; cases hdel
            | node sd sl sr =>
              rw [hsu] at hdel
              cases hdel
              rw [hsu] at hsr har
              rw [hor] at hsl
              have hrh : d.rightHeight = max sd.leftHeight sd.rightHeight + 1 := hsr
              have hlh : d.leftHeight ≤ 1 := hsl
              exact ⟨har, by simp only [chHeight_node]; omega,
                by simp only [chHeight_node]; omega⟩
    · rw [if_neg hk] at hdel
      by_cases hblt : blt k d.key = true
      · rw [if_pos hblt] at hdel
        cases hdc : nodeDel l k with
        | error e => rw [hdc] at hdel; cases hdel
        | ok c2 =>
          rw [hdc] at hdel
          cases hdel
          obtain ⟨iA, iB, iC⟩ := ihl hal hdc
          have hlnode : l ≠ JTree.nil := by
            intro h; rw [h] at hdc; simp [nodeDel] at hdc
          have hlh : d.leftHeight = chHeight l := by
            cases hl' : l with
            | nil => exact absurd hl' hlnode
            | node ld ll lr => rw [hl'] at hsl; exact hsl
          have hgc : Ghost2 c2 → 1 ≤ d.rightHeight := by
            intro hG
            have h2 := ghost2_chH hG
            omega
          have hd1 : chHeight c2 ≤ d.rightHeight + 2 := by omega
          have hd2 : d.rightHeight ≤ chHeight c2 + 2 := by omega
          obtain ⟨sA, sH, sG⟩ := setChild_avl d l r true c2 hsl hsr hal har iA hd1 hd2 hgc
          simp only [if_true] at sH
          have hcc : chHeight (setChild d l r true c2) = ht (setChild d l r true c2) := by
            rcases ht_chHeight_cases (setChild d l r true c2) with ⟨he, -, -⟩ | he
            · exact absurd he (setChild_ne_nil d l r true c2)
            · exact he.symm
          refine ⟨sA, ?_, ?_⟩ <;>
            (simp only [chHeight_node]
             rw [hcc]
             rcases sH with hEq | ⟨hdir | hdir, hlow, hhigh⟩ <;> omega)
      · rw [if_neg hblt] at hdel
        cases hdc : nodeDel r k with
        | error e => rw [hdc] at hdel; cases hdel
        | ok c2 =>
          rw [hdc] at hdel
          cases hdel
          obtain ⟨iA, iB, iC⟩ := ihr har hdc
          have hrnode : r ≠ JTree.nil := by
            intro h; rw [h] at hdc; simp [nodeDel] at hdc
          have hrh : d.rightHeight = chHeight r := by
            cases hr' : r with
            | nil => exact absurd hr' hrnode
            | node rd rl rr => rw [hr'] at hsr; exact hsr
          have hgc : Ghost2 c2 → 1 ≤ d.leftHeight := by
            intro hG
            have h2 := ghost2_chH hG
            omega
          have hd1 : chHeight c2 ≤ d.leftHeight + 2 := by omega
          have hd2 : d.leftHeight ≤ chHeight c2 + 2 := by omega
          obtain ⟨sA, sH, sG⟩ := setChild_avl d l r false c2 hsl hsr hal har iA hd1 hd2 hgc
          simp only [if_false, Bool.false_eq_true] at sH
          have hcc : chHeight (setChild d l r false c2) = ht (setChild d l r false c2) := by
            rcases ht_chHeight_cases (setChild d l r false c2) with ⟨he, -, -⟩ | he
            · exact absurd he (setChild_ne_nil d l r false c2)
            · exact he.symm
          refine ⟨sA, ?_, ?_⟩ <;>
            (simp only [chHeight_node]
             rw [hcc]
             rcases sH with hEq | ⟨hdir | hdir, hlow, hhigh⟩ <;> omega)

lemma hashOk_setChild {d : NodeRec} {l r : JTree} (b : Bool) {c : JTree}
    (hkv : d.kvHash = kvHashOf d.key d.value)
    (hl : hashOk l = true) (hr : hashOk r = true) (hc : hashOk c = true)
    (hsl : SlotOk d.leftHeight l) (hsr : SlotOk d.rightHeight r) :
    hashOk (setChild d l r b c) = true := by
  have hch := chHeight_pos c
  cases b with
  | true =>
    simp only [setChild, linkChild, if_true]
    split
    · refine hashOk_rebalance (by simpa using hkv) hc hr ?_
      by_cases hb2 : balanceI { d with leftHeight := chHeight c } < 0
      · rw [if_pos hb2]
        cases c with
        | nil =>
          exfalso
          simp [balanceI, chHeight] at *
          omega
        | node cd cl cr => simp
      · rw [if_neg hb2]
        cases r with
        | nil =>
          exfalso
          simp [SlotOk] at hsr
          simp [balanceI] at *
          omega
        | node cd cl cr => simp
    · exact hashOk_setChildNR true hkv hl hr hc
  | false =>
    simp only [setChild, linkChild, if_false, Bool.false_eq_true]
    split
    · refine hashOk_rebalance (by simpa using hkv) hl hc ?_
      by_cases hb2 : balanceI { d with rightHeight := chHeight c } < 0
      · rw [if_pos hb2]
        cases l with
        | nil =>
          exfalso
          simp [SlotOk] at hsl
          simp [balanceI] at *
          omega
        | node cd cl cr => simp
      · rw [if_neg hb2]
        cases c with
        | nil =>
          exfalso
          simp [balanceI, chHeight] at *
          omega
        | node cd cl cr => simp
    · exact hashOk_setChildNR false hkv hl hr hc

lemma hashOk_newLeaf (k v : Bytes) :
    hashOk (JTree.node (newNode k v) .nil .nil) = true := by
  simp [hashOk, newNode, nodeHashOf, hashOf]

set_option maxHeartbeats 2000000 in
lemma hashOk_nodePut {t : JTree} (k v : Bytes) (ha : AvlOk t) (h : hashOk t = true)
    (hf : containsB t k = false) : hashOk (nodePut t k v) = true := by
  induction t with
  | nil => simpa [nodePut] using hashOk_newLeaf k v
  | node d l r ihl ihr =>
    obtain ⟨hkv, hh, hl, hr⟩ := hashOk_node.mp h
    obtain ⟨hsl, hsr, hbal, hal, har⟩ := avlOk_node.mp ha
    simp only [containsB, Bool.or_eq_false_iff, beq_eq_false_iff_ne, ne_eq] at hf
    obtain ⟨⟨hne, hfl⟩, hfr⟩ := hf
    rw [nodePut.eq_def]
    dsimp only
    rw [if_neg hne]
    by_cases hblt : blt k d.key = true
    · rw [if_pos hblt]
      exact hashOk_setChild true hkv hl hr (ihl hal hl hfl) hsl hsr
    · rw [if_neg hblt]
      exact hashOk_setChild false hkv hl hr (ihr har hr hfr) hsl hsr

set_option maxHeartbeats 2000000 in
lemma hashOk_nodeDel {t t2 : JTree} (k : Bytes) (ha : AvlOk t) (h : hashOk t = true)
    (hdel : nodeDel t k = .ok t2) : hashOk t2 = true := by
  induction t generalizing t2 with
  | nil => simp [nodeDel] at hdel
  | node d l r ihl ihr =>
    obtain ⟨hkv, hh, hl, hr⟩ := hashOk_node.mp h
    obtain ⟨hsl, hsr, hbal, hal, har⟩ := avlOk_node.mp ha
    rw [nodeDel.eq_def] at hdel
    simp only [] at hdel
    by_cases hk : k = d.key
    · rw [if_pos hk] at hdel
      by_cases hleaf : l = JTree.nil ∧ r = JTree.nil
      · rw [if_pos hleaf] at hdel
        cases hdel
        simp [hashOk]
      · rw [if_neg hleaf] at hdel
        by_cases hlt : d.rightHeight < d.leftHeight
        · simp only [if_pos hlt] at hdel
          cases hor : r with
          | node od ol orr => rw [hor] at hdel; cases hdel
          | nil =>
            rw [hor] at hdel
            cases hsu : l with
            | nil => rw [hsu] at hdel; cases hdel
            | node sd sl sr =>
              rw [hsu] at hdel
              cases hdel
              rw [hsu] at hl
              exact hl
        · simp only [if_neg hlt] at hdel
          cases hor : l with
          | node od ol orr => rw [hor] at hdel; cases hdel
          | nil =>
            rw [hor] at hdel
            cases hsu : r with
            | nil => rw [hsu] at hdel; cases hdel
            | node sd sl sr =>
              rw [hsu] at hdel
              cases hdel
              rw [hsu] at hr
              exact hr
    · rw [if_neg hk] at hdel
      by_cases hblt : blt k d.key = true
      · rw [if_pos hblt] at hdel
        cases hdc : nodeDel l k with
        | error e => rw [hdc] at hdel; cases hdel
        | ok c2 =>
          rw [hdc] at hdel
          cases hdel
          exact hashOk_setChild true hkv hl hr (ihl hal hl hdc) hsl hsr
      · rw [if_neg hblt] at hdel
        cases hdc : nodeDel r k with
        | error e => rw [hdc] at hdel; cases hdel
        | ok c2 =>
          rw [hdc] at hdel
          cases hdel
          exact hashOk_setChild false hkv hl hr (ihr har hr hdc) hsl hsr

lemma treePut_avl (t : JTree) (k v : Bytes) (ha : AvlOk t) : AvlOk (treePut t k v) := by
  cases t with
  | nil => exact (nodePut_avl .nil k v trivial).1
  | node d l r => exact (nodePut_avl (.node d l r) k v ha).1

lemma treeDel_avl {t t2 : JTree} (k : Bytes) (ha : AvlOk t)
    (hdel : treeDel t k = .ok t2) : AvlOk t2 := by
  cases t with
  | nil => simp [treeDel] at hdel
  | node d l r => exact (nodeDel_avl k ha hdel).1

lemma applyOp_avl (t : JTree) (op : Op) (ha : AvlOk t) : AvlOk (applyOp t op) := by
  cases op with
  | put k v => exact treePut_avl t k v ha
  | del k =>
    dsimp only [applyOp]
    cases hdel : treeDel t k with
    | ok t2 => exact treeDel_avl k ha hdel
    | error e => exact ha

lemma applyOps_avl (ops : List Op) : AvlOk (applyOps ops) := by
  have h : ∀ t, AvlOk t → AvlOk (ops.foldl applyOp t) := by
    induction ops with
    | nil => exact fun t h => h
    | cons op ops ih => exact fun t h => ih _ (applyOp_avl t op h)
  exact h .nil trivial

lemma avlOk_balanced (t : JTree) (h : AvlOk t) : Balanced t := by
  induction t with
  | nil => trivial
  | node d l r ihl ihr =>
    obtain ⟨-, -, hb, hl, hr⟩ := avlOk_node.mp h
    exact ⟨hb, ihl hl, ihr hr⟩

lemma hashOk_treePut {t : JTree} (k v : Bytes) (ha : AvlOk t) (h : hashOk t = true)
    (hf : containsB t k = false) : hashOk (treePut t k v) = true := by
  cases t with
  | nil => simpa [treePut] using hashOk_newLeaf k v
  | node d l r => exact hashOk_nodePut k v ha h hf

lemma hashOk_treeDel {t t2 : JTree} (k : Bytes) (ha : AvlOk t) (h : hashOk t = true)
    (hdel : treeDel t k = .ok t2) : hashOk t2 = true := by
  cases t with
  | nil => simp [treeDel] at hdel
  | node d l r => exact hashOk_nodeDel k ha h hdel

lemma hashOk_applyOps {ops : List Op} (hf : freshOps .nil ops = true) :
    hashOk (applyOps ops) = true := by
  suffices h : ∀ t, AvlOk t → hashOk t = true → freshOps t ops = true →
      hashOk (ops.foldl applyOp t) = true from h .nil trivial rfl hf
  clear hf
  induction ops with
  | nil => exact fun t _ h _ => h
  | cons op rest ih =>
    intro t ha hh hf
    simp only [freshOps, Bool.and_eq_true] at hf
    obtain ⟨h1, h2⟩ := hf
    refine ih (applyOp t op) (applyOp_avl t op ha) ?_ h2
    cases op with
    | put k v =>
      exact hashOk_treePut k v ha hh (by simpa using h1)
    | del k =>
      dsimp only [applyOp]
      cases hdel : treeDel t k with
      | ok t2 => exact hashOk_treeDel k ha hh hdel
      | error e => exact hh

lemma hashOf_shape {t : JTree} (h : hashOk t = true) : hashOf t = shapeHash (shape t) := by
  induction t with
  | nil => rfl
  | node d l r ihl ihr =>
    obtain ⟨hkv, hh, hl, hr⟩ := hashOk_node.mp h
    simp only [hashOf, shape, shapeHash, nodeHashOf]
    rw [hh, hkv, ← ihl hl, ← ihr hr]
    rfl

lemma rootHash_eq_of_shape {t1 t2 : JTree} (h1 : hashOk t1 = true) (h2 : hashOk t2 = true)
    (hs : shape t1 = shape t2) : rootHash t1 = rootHash t2 := by
  cases t1 with
  | nil =>
    cases t2 with
    | nil => rfl
    | node d l r => simp [shape] at hs
  | node d l r =>
    cases t2 with
    | nil => simp [shape] at hs
    | node d2 l2 r2 =>
      have e1 := hashOf_shape h1
      have e2 := hashOf_shape h2
      simp only [hashOf] at e1 e2
      simp only [rootHash, e1, e2, hs]

/-! ## Claim theorems -/

/-- C2: for every sequence of put and delete operations applied to an
initially empty tree, after each completed mutation every node reachable
from the root satisfies `|right_height − left_height| ≤ 1` (a delete that
throws completes without mutating the committed state, so the reachable
states are exactly the `applyOps` states). -/
theorem c2_avl_balance (ops : List Op) : Balanced (applyOps ops) :=
  avlOk_balanced _ (applyOps_avl ops)

/-- C1: the kv-hash recurrence always holds and the S1 scenario checks out
(`root_hash()` after `put("foo","bar")` is `H(nullHash ∥ nullHash ∥
H(enc("foo") ∥ enc("bar")))`, and `get "foo"` yields `"bar"`) — but the
node-hash recurrence is *not* maintained for every reachable state: after
updating the value of an existing key, the updated node's `hash` still
reflects the old value (`Node.put` recomputes `kvHash` but not `hash` on
the key-match branch), so the stated invariant fails on the two-put
state. -/
theorem c1_hash_recurrence :
    rootHash (applyOps [.put (bytes "foo") (bytes "bar")]) =
      some (sha256 (nullHash ++ nullHash ++ kvHashOf (bytes "foo") (bytes "bar"))) ∧
    treeGet (applyOps [.put (bytes "foo") (bytes "bar")]) (bytes "foo") =
      .found (bytes "bar") ∧
    hashOk (applyOps [.put (bytes "foo") (bytes "bar")]) = true ∧
    hashOk (applyOps [.put (bytes "foo") (bytes "bar"),
                      .put (bytes "foo") (bytes "qux")]) = false := by
  decide

/-- C4: after `put(k, v)` with `k` already present, the node's `value` and
`kv_hash` are updated, but the node's own `hash` is *not* recomputed (the
key-match branch of `Node.put` calls `calculateKVHash` and `save` without
`calculateHashSync`, and no `setChild` unwind happens for the updated node
itself), so the stored root hash still reflects the old value and the
hash recurrence fails. -/
theorem c4_update_stale_hash :
    recAt (applyOps [.put (bytes "foo") (bytes "bar"),
                     .put (bytes "foo") (bytes "qux")]) (bytes "foo") =
      some { key := bytes "foo", value := bytes "qux",
             kvHash := kvHashOf (bytes "foo") (bytes "qux"),
             hash := sha256 (nullHash ++ nullHash ++ kvHashOf (bytes "foo") (bytes "bar")),
             leftHeight := 0, rightHeight := 0 } ∧
    rootHash (applyOps [.put (bytes "foo") (bytes "bar"),
                        .put (bytes "foo") (bytes "qux")]) =
      rootHash (applyOps [.put (bytes "foo") (bytes "bar")]) ∧
    hashOk (applyOps [.put (bytes "foo") (bytes "bar"),
                      .put (bytes "foo") (bytes "qux")]) = false := by
  decide

/-- C3 (amended): `root_hash()` is determined by the final tree — keys,
values *and arrangement* — provided no put in either run updated an
existing key: two update-free runs whose final trees have the same shape
have the same `root_hash()`.  (The original claim — determined by the
final key/value *set* alone — is refuted by `c3_counterexample`: insertion
order changes the arrangement and hence the hash.) -/
theorem c3_root_hash_shape (ops1 ops2 : List Op)
    (h1 : freshOps .nil ops1 = true) (h2 : freshOps .nil ops2 = true)
    (hs : shape (applyOps ops1) = shape (applyOps ops2)) :
    rootHash (applyOps ops1) = rootHash (applyOps ops2) :=
  rootHash_eq_of_shape (hashOk_applyOps h1) (hashOk_applyOps h2) hs

/-- Witness for C3: two different update-free runs — one of which inserts
and then deletes an extra key — reach trees of the same shape, and the
theorem yields equal root hashes. -/
theorem c3_root_hash_shape_witness :
    rootHash (applyOps [.put (bytes "a") (bytes "A"), .put (bytes "b") (bytes "B")]) =
      rootHash (applyOps [.put (bytes "a") (bytes "A"), .put (bytes "c") (bytes "C"),
                          .del (bytes "c"), .put (bytes "b") (bytes "B")]) :=
  c3_root_hash_shape
    [.put (bytes "a") (bytes "A"), .put (bytes "b") (bytes "B")]
    [.put (bytes "a") (bytes "A"), .put (bytes "c") (bytes "C"),
     .del (bytes "c"), .put (bytes "b") (bytes "B")]
    (by decide) (by decide) (by decide)

/-! ## Lexicographic order facts -/

lemma blt_irrefl (a : Bytes) : blt a a = false := by
  induction a with
  | nil => rfl
  | cons x xs ih => simp [blt, ih]

lemma blt_asymm {a b : Bytes} (h : blt a b = true) : blt b a = false := by
  induction a generalizing b with
  | nil =>
    cases b with
    | nil => simpa [blt] using h
    | cons y ys => rfl
  | cons x xs ih =>
    cases b with
    | nil => simp [blt] at h
    | cons y ys =>
      simp only [blt] at h ⊢
      by_cases h1 : x < y
      · rw [if_neg (by omega : ¬ y < x), if_pos h1]
      · rw [if_neg h1] at h
        by_cases h2 : y < x
        · rw [if_pos h2] at h; exact absurd h (by simp)
        · rw [if_neg h2] at h
          rw [if_neg h2, if_neg h1]
          exact ih h

lemma blt_trans {a b c : Bytes} (h1 : blt a b = true) (h2 : blt b c = true) :
    blt a c = true := by
  induction a generalizing b c with
  | nil =>
    cases c with
    | nil => cases b <;> simp [blt] at h2
    | cons z zs => rfl
  | cons x xs ih =>
    cases b with
    | nil => simp [blt] at h1
    | cons y ys =>
      cases c with
      | nil => simp [blt] at h2
      | cons z zs =>
        simp only [blt] at h1 h2 ⊢
        by_cases hxy : x < y
        · rw [if_pos hxy] at h1
          by_cases hyz : y < z
          · rw [if_pos (by omega : x < z)]
          · rw [if_neg hyz] at h2
            by_cases hzy : z < y
            · rw [if_pos hzy] at h2; exact absurd h2 (by simp)
            · rw [if_pos (by omega : x < z)]
        · rw [if_neg hxy] at h1
          by_cases hyx : y < x
          · rw [if_pos hyx] at h1; exact absurd h1 (by simp)
          · rw [if_neg hyx] at h1
            by_cases hyz : y < z
            · rw [if_pos (by omega : x < z)]
            · rw [if_neg hyz] at h2
              by_cases hzy : z < y
              · rw [if_pos hzy] at h2; exact absurd h2 (by simp)
              · rw [if_neg hzy] at h2
                rw [if_neg (by omega : ¬ x < z), if_neg (by omega : ¬ z < x)]
                exact ih h1 h2

lemma blt_total {a b : Bytes} (hne : a ≠ b) :
    blt a b = true ∨ blt b a = true := by
  induction a generalizing b with
  | nil =>
    cases b with
    | nil => exact absurd rfl hne
    | cons y ys => exact Or.inl rfl
  | cons x xs ih =>
    cases b with
    | nil => exact Or.inr rfl
    | cons y ys =>
      by_cases hxy : x < y
      · exact Or.inl (by simp only [blt]; rw [if_pos hxy])
      · by_cases hyx : y < x
        · exact Or.inr (by simp only [blt]; rw [if_pos hyx])
        · have hx : x = y := by omega
          subst hx
          have hne2 : xs ≠ ys := fun h => hne (by rw [h])
          rcases ih hne2 with h | h
          · exact Or.inl (by simp only [blt]; rw [if_neg hxy, if_neg hxy]; exact h)
          · exact Or.inr (by simp only [blt]; rw [if_neg hxy, if_neg hxy]; exact h)

/-! ## BST order preservation -/

lemma allKeysB_node {d : NodeRec} {l r : JTree} {p : Bytes → Bool} :
    allKeysB (.node d l r) p = true ↔
      p d.key = true ∧ allKeysB l p = true ∧ allKeysB r p = true := by
  simp [allKeysB, and_assoc]

lemma ordered_node {d : NodeRec} {l r : JTree} :
    Ordered (.node d l r) = true ↔
      allKeysB l (fun x => blt x d.key) = true ∧
      allKeysB r (fun x => blt d.key x) = true ∧
      Ordered l = true ∧ Ordered r = true := by
  simp [Ordered, and_assoc]

lemma allKeysB_imp {t : JTree} {p q : Bytes → Bool}
    (hpq : ∀ k, p k = true → q k = true) (h : allKeysB t p = true) :
    allKeysB t q = true := by
  induction t with
  | nil => rfl
  | node d l r ihl ihr =>
    obtain ⟨h1, h2, h3⟩ := allKeysB_node.mp h
    exact allKeysB_node.mpr ⟨hpq _ h1, ihl h2, ihr h3⟩

lemma allKeysB_contains {t : JTree} {k : Bytes} {p : Bytes → Bool}
    (ha : allKeysB t p = true) (hc : containsB t k = true) : p k = true := by
  induction t with
  | nil => simp [containsB] at hc
  | node d l r ihl ihr =>
    obtain ⟨h1, h2, h3⟩ := allKeysB_node.mp ha
    simp only [containsB, Bool.or_eq_true, beq_iff_eq] at hc
    rcases hc with (hc | hc) | hc
    · subst hc; exact h1
    · exact ihl h2 hc
    · exact ihr h3 hc

lemma allKeysB_setChildNR {d : NodeRec} {l r : JTree} (b : Bool) {c : JTree}
    {p : Bytes → Bool} :
    allKeysB (setChildNR d l r b c) p = true ↔
      p d.key = true ∧ allKeysB (if b then c else l) p = true ∧
      allKeysB (if b then r else c) p = true := by
  cases b <;> simp [setChildNR, linkChild, allKeysB, and_assoc]

lemma ordered_setChildNR {d : NodeRec} {l r : JTree} (b : Bool) {c : JTree}
    (hL : allKeysB (if b then c else l) (fun x => blt x d.key) = true)
    (hR : allKeysB (if b then r else c) (fun x => blt d.key x) = true)
    (hoL : Ordered (if b then c else l) = true)
    (hoR : Ordered (if b then r else c) = true) :
    Ordered (setChildNR d l r b c) = true := by
  cases b with
  | true =>
    simp only [if_true] at hL hR hoL hoR
    simp only [setChildNR, linkChild, if_true]
    exact ordered_node.mpr ⟨hL, hR, hoL, hoR⟩
  | false =>
    simp only [if_false, Bool.false_eq_true] at hL hR hoL hoR
    simp only [setChildNR, linkChild, if_false, Bool.false_eq_true]
    exact ordered_node.mpr ⟨hL, hR, hoL, hoR⟩

lemma ordered_allKeys_rotate (d : NodeRec) (l r : JTree) (ib : Bool)
    (hl : allKeysB l (fun x => blt x d.key) = true)
    (hr : allKeysB r (fun x => blt d.key x) = true)
    (hol : Ordered l = true) (hor : Ordered r = true) :
    Ordered (rotate d l r ib) = true ∧
    (∀ p : Bytes → Bool, p d.key = true → allKeysB l p = true → allKeysB r p = true →
      allKeysB (rotate d l r ib) p = true) := by
  cases ib with
  | true =>
    cases l with
    | nil =>
      refine ⟨ordered_node.mpr ⟨hl, hr, hol, hor⟩, ?_⟩
      intro p h1 h2 h3
      exact allKeysB_node.mpr ⟨h1, h2, h3⟩
    | node cd cl cr =>
      obtain ⟨hcl, hcr, hocl, hocr⟩ := ordered_node.mp hol
      obtain ⟨hk, hclk, hcrk⟩ := allKeysB_node.mp hl
      constructor
      · show Ordered
          (setChildNR cd cl cr false (setChildNR d (.node cd cl cr) r true cr)) = true
        refine ordered_setChildNR false hcl ?_ hocl ?_
        · refine (allKeysB_setChildNR true).mpr ⟨hk, hcr, ?_⟩
          exact allKeysB_imp (fun x hx => blt_trans hk hx) hr
        · exact ordered_setChildNR true hcrk hr hocr hor
      · intro p h1 h2 h3
        obtain ⟨hp, hpl, hpr⟩ := allKeysB_node.mp h2
        show allKeysB
          (setChildNR cd cl cr false (setChildNR d (.node cd cl cr) r true cr)) p = true
        refine (allKeysB_setChildNR false).mpr ⟨hp, hpl, ?_⟩
        exact (allKeysB_setChildNR true).mpr ⟨h1, hpr, h3⟩
  | false =>
    cases r with
    | nil =>
      refine ⟨ordered_node.mpr ⟨hl, hr, hol, hor⟩, ?_⟩
      intro p h1 h2 h3
      exact allKeysB_node.mpr ⟨h1, h2, h3⟩
    | node cd cl cr =>
      obtain ⟨hcl, hcr, hocl, hocr⟩ := ordered_node.mp hor
      obtain ⟨hk, hclk, hcrk⟩ := allKeysB_node.mp hr
      constructor
      · show Ordered
          (setChildNR cd cl cr true (setChildNR d l (.node cd cl cr) false cl)) = true
        refine ordered_setChildNR true ?_ hcr ?_ hocr
        · refine (allKeysB_setChildNR false).mpr ⟨hk, ?_, hcl⟩
          exact allKeysB_imp (fun x hx => blt_trans hx hk) hl
        · exact ordered_setChildNR false hl hclk hol hocl
      · intro p h1 h2 h3
        obtain ⟨hp, hpl, hpr⟩ := allKeysB_node.mp h3
        show allKeysB
          (setChildNR cd cl cr true (setChildNR d l (.node cd cl cr) false cl)) p = true
        refine (allKeysB_setChildNR true).mpr ⟨hp, ?_, hpr⟩
        exact (allKeysB_setChildNR false).mpr ⟨h1, h2, hpl⟩

lemma ordered_allKeys_rotateT (t : JTree) (ib : Bool) (hot : Ordered t = true) :
    Ordered (rotateT t ib) = true ∧
    (∀ p : Bytes → Bool, allKeysB t p = true → allKeysB (rotateT t ib) p = true) := by
  cases t with
  | nil => exact ⟨rfl, fun p h => h⟩
  | node d l r =>
    obtain ⟨hl, hr, hol, hor⟩ := ordered_node.mp hot
    obtain ⟨hO, hK⟩ := ordered_allKeys_rotate d l r ib hl hr hol hor
    refine ⟨hO, fun p h => ?_⟩
    obtain ⟨h1, h2, h3⟩ := allKeysB_node.mp h
    exact hK p h1 h2 h3

lemma ordered_allKeys_rebalance (d : NodeRec) (l r : JTree)
    (hl : allKeysB l (fun x => blt x d.key) = true)
    (hr : allKeysB r (fun x => blt d.key x) = true)
    (hol : Ordered l = true) (hor : Ordered r = true) :
    Ordered (rebalance d l r) = true ∧
    (∀ p : Bytes → Bool, p d.key = true → allKeysB l p = true → allKeysB r p = true →
      allKeysB (rebalance d l r) p = true) := by
  unfold rebalance
  by_cases hb : balanceI d < 0
  · rw [if_pos hb]
    cases l with
    | nil =>
      refine ⟨ordered_node.mpr ⟨hl, hr, hol, hor⟩, ?_⟩
      intro p h1 h2 h3
      exact allKeysB_node.mpr ⟨h1, h2, h3⟩
    | node cd cl cr =>
      dsimp only
      by_cases hdb : 0 < balanceI cd
      · rw [if_pos hdb]
        obtain ⟨hcl, hcr, hocl, hocr⟩ := ordered_node.mp hol
        obtain ⟨hk, hclk, hcrk⟩ := allKeysB_node.mp hl
        obtain ⟨hrotO, hrotK⟩ := ordered_allKeys_rotate cd cl cr false hcl hcr hocl hocr
        have hrotlt := hrotK (fun x => blt x d.key) hk hclk hcrk
        have hinner : Ordered (setChildNR d (.node cd cl cr) r true
            (rotate cd cl cr false)) = true :=
          ordered_setChildNR true hrotlt hr hrotO hor
        obtain ⟨hO, hK⟩ := ordered_allKeys_rotateT _ true hinner
        refine ⟨hO, fun p h1 h2 h3 => ?_⟩
        obtain ⟨hp, hpl, hpr⟩ := allKeysB_node.mp h2
        exact hK p ((allKeysB_setChildNR true).mpr
          ⟨h1, hrotK p hp hpl hpr, h3⟩)
      · rw [if_neg hdb]
        exact ordered_allKeys_rotate d (.node cd cl cr) r true hl hr hol hor
  · rw [if_neg hb]
    cases r with
    | nil =>
      refine ⟨ordered_node.mpr ⟨hl, hr, hol, hor⟩, ?_⟩
      intro p h1 h2 h3
      exact allKeysB_node.mpr ⟨h1, h2, h3⟩
    | node cd cl cr =>
      dsimp only
      by_cases hdb : balanceI cd < 0
      · rw [if_pos hdb]
        obtain ⟨hcl, hcr, hocl, hocr⟩ := ordered_node.mp hor
        obtain ⟨hk, hclk, hcrk⟩ := allKeysB_node.mp hr
        obtain ⟨hrotO, hrotK⟩ := ordered_allKeys_rotate cd cl cr true hcl hcr hocl hocr
        have hrotgt := hrotK (fun x => blt d.key x) hk hclk hcrk
        have hinner : Ordered (setChildNR d l (.node cd cl cr) false
            (rotate cd cl cr true)) = true :=
          ordered_setChildNR false hl hrotgt hol hrotO
        obtain ⟨hO, hK⟩ := ordered_allKeys_rotateT _ false hinner
        refine ⟨hO, fun p h1 h2 h3 => ?_⟩
        obtain ⟨hp, hpl, hpr⟩ := allKeysB_node.mp h3
        exact hK p ((allKeysB_setChildNR false).mpr
          ⟨h1, h2, hrotK p hp hpl hpr⟩)
      · rw [if_neg hdb]
        exact ordered_allKeys_rotate d l (.node cd cl cr) false hl hr hol hor

lemma ordered_allKeys_setChild (d : NodeRec) (l r : JTree) (b : Bool) (c : JTree)
    (hL : allKeysB (if b then c else l) (fun x => blt x d.key) = true)
    (hR : allKeysB (if b then r else c) (fun x => blt d.key x) = true)
    (hoL : Ordered (if b then c else l) = true)
    (hoR : Ordered (if b then r else c) = true) :
    Ordered (setChild d l r b c) = true ∧
    (∀ p : Bytes → Bool, p d.key = true → allKeysB (if b then c else l) p = true →
      allKeysB (if b then r else c) p = true → allKeysB (setChild d l r b c) p = true) := by
  cases b with
  | true =>
    simp only [if_true] at hL hR hoL hoR ⊢
    simp only [setChild, linkChild, if_true]
    split
    · exact ordered_allKeys_rebalance _ c r hL hR hoL hoR
    · constructor
      · exact ordered_setChildNR true hL hR hoL hoR
      · intro p h1 h2 h3
        exact (allKeysB_setChildNR true).mpr ⟨h1, h2, h3⟩
  | false =>
    simp only [if_false, Bool.false_eq_true] at hL hR hoL hoR ⊢
    simp only [setChild, linkChild, if_false, Bool.false_eq_true]
    split
    · exact ordered_allKeys_rebalance _ l c hL hR hoL hoR
    · constructor
      · exact ordered_setChildNR false hL hR hoL hoR
      · intro p h1 h2 h3
        exact (allKeysB_setChildNR false).mpr ⟨h1, h2, h3⟩

lemma ordered_allKeys_nodePut (t : JTree) (k v : Bytes) (ho : Ordered t = true) :
    Ordered (nodePut t k v) = true ∧
    (∀ p : Bytes → Bool, p k = true → allKeysB t p = true →
      allKeysB (nodePut t k v) p = true) := by
  induction t with
  | nil =>
    refine ⟨rfl, fun p h1 h2 => ?_⟩
    exact allKeysB_node.mpr ⟨h1, rfl, rfl⟩
  | node d l r ihl ihr =>
    obtain ⟨hl, hr, hol, hor⟩ := ordered_node.mp ho
    rw [nodePut.eq_def]
    dsimp only
    by_cases hk : k = d.key
    · rw [if_pos hk]
      subst hk
      refine ⟨ordered_node.mpr ⟨hl, hr, hol, hor⟩, fun p h1 h2 => ?_⟩
      obtain ⟨hp, hpl, hpr⟩ := allKeysB_node.mp h2
      exact allKeysB_node.mpr ⟨h1, hpl, hpr⟩
    · rw [if_neg hk]
      by_cases hblt : blt k d.key = true
      · rw [if_pos hblt]
        obtain ⟨iO, iK⟩ := ihl hol
        obtain ⟨sO, sK⟩ := ordered_allKeys_setChild d l r true (nodePut l k v)
          (iK (fun x => blt x d.key) hblt hl) hr iO hor
        refine ⟨sO, fun p h1 h2 => ?_⟩
        obtain ⟨hp, hpl, hpr⟩ := allKeysB_node.mp h2
        exact sK p hp (iK p h1 hpl) hpr
      · rw [if_neg hblt]
        have hgt : blt d.key k = true := by
          rcases blt_total (fun h => hk h.symm) with h | h
          · exact h
          · exact absurd h hblt
        obtain ⟨iO, iK⟩ := ihr hor
        obtain ⟨sO, sK⟩ := ordered_allKeys_setChild d l r false (nodePut r k v)
          hl (iK (fun x => blt d.key x) hgt hr) hol iO
        refine ⟨sO, fun p h1 h2 => ?_⟩
        obtain ⟨hp, hpl, hpr⟩ := allKeysB_node.mp h2
        exact sK p hp hpl (iK p h1 hpr)

lemma ordered_allKeys_nodeDel {t : JTree} (k : Bytes) (ho : Ordered t = true)
    {t2 : JTree} (hdel : nodeDel t k = .ok t2) :
    Ordered t2 = true ∧
    (∀ p : Bytes → Bool, allKeysB t p = true → allKeysB t2 p = true) := by
  induction t generalizing t2 with
  | nil => simp [nodeDel] at hdel
  | node d l r ihl ihr =>
    obtain ⟨hl, hr, hol, hor⟩ := ordered_node.mp ho
    rw [nodeDel.eq_def] at hdel
    simp only [] at hdel
    by_cases hk : k = d.key
    · rw [if_pos hk] at hdel
      by_cases hleaf : l = JTree.nil ∧ r = JTree.nil
      · rw [if_pos hleaf] at hdel
        cases hdel
        exact ⟨rfl, fun p h => rfl⟩
      · rw [if_neg hleaf] at hdel
        by_cases hlt : d.rightHeight < d.leftHeight
        · simp only [if_pos hlt] at hdel
          cases hor2 : r with
          | node od ol orr => rw [hor2] at hdel; cases hdel
          | nil =>
            rw [hor2] at hdel
            cases hsu : l with
            | nil => rw [hsu] at hdel; cases hdel
            | node sd sl sr =>
              rw [hsu] at hdel
              cases hdel
              rw [hsu] at hol
              refine ⟨hol, fun p h => ?_⟩
              obtain ⟨hp, hpl, hpr⟩ := allKeysB_node.mp h
              exact hpl
        · simp only [if_neg hlt] at hdel
          cases hor2 : l with
          | node od ol orr => rw [hor2] at hdel; cases hdel
          | nil =>
            rw [hor2] at hdel
            cases hsu : r with
            | nil => rw [hsu] at hdel; cases hdel
            | node sd sl sr =>
              rw [hsu] at hdel
              cases hdel
              rw [hsu] at hor
              refine ⟨hor, fun p h => ?_⟩
              obtain ⟨hp, hpl, hpr⟩ := allKeysB_node.mp h
              exact hpr
    · rw [if_neg hk] at hdel
      by_cases hblt : blt k d.key = true
      · rw [if_pos hblt] at hdel
        cases hdc : nodeDel l k with
        | error e => rw [hdc] at hdel; cases hdel
        | ok c2 =>
          rw [hdc] at hdel
          cases hdel
          obtain ⟨iO, iK⟩ := ihl hol hdc
          obtain ⟨sO, sK⟩ := ordered_allKeys_setChild d l r true c2
            (iK (fun x => blt x d.key) hl) hr iO hor
          refine ⟨sO, fun p h => ?_⟩
          obtain ⟨hp, hpl, hpr⟩ := allKeysB_node.mp h
          exact sK p hp (iK p hpl) hpr
      · rw [if_neg hblt] at hdel
        cases hdc : nodeDel r k with
        | error e => rw [hdc] at hdel; cases hdel
        | ok c2 =>
          rw [hdc] at hdel
          cases hdel
          obtain ⟨iO, iK⟩ := ihr hor hdc
          obtain ⟨sO, sK⟩ := ordered_allKeys_setChild d l r false c2
            hl (iK (fun x => blt d.key x) hr) hol iO
          refine ⟨sO, fun p h => ?_⟩
          obtain ⟨hp, hpl, hpr⟩ := allKeysB_node.mp h
          exact sK p hp hpl (iK p hpr)

lemma ordered_applyOps (ops : List Op) : Ordered (applyOps ops) = true := by
  suffices h : ∀ t, Ordered t = true → Ordered (ops.foldl applyOp t) = true from
    h .nil rfl
  induction ops with
  | nil => exact fun t h => h
  | cons op rest ih =>
    intro t ho
    refine ih (applyOp t op) ?_
    cases op with
    | put k v =>
      cases t with
      | nil => exact rfl
      | node d l r => exact (ordered_allKeys_nodePut (.node d l r) k v ho).1
    | del k =>
      dsimp only [applyOp]
      cases hdel : treeDel t k with
      | ok t2 =>
        cases t with
        | nil => simp [treeDel] at hdel
        | node d l r => exact (ordered_allKeys_nodeDel k ho hdel).1
      | error e => exact ho

/-! ## Delete and get on absent keys -/

lemma nodeDel_absent {t : JTree} {k : Bytes} (hf : containsB t k = false) :
    nodeDel t k = .error .notFound := by
  induction t with
  | nil => rfl
  | node d l r ihl ihr =>
    simp only [containsB, Bool.or_eq_false_iff, beq_eq_false_iff_ne, ne_eq] at hf
    obtain ⟨⟨hne, hfl⟩, hfr⟩ := hf
    rw [nodeDel.eq_def]
    dsimp only
    rw [if_neg hne]
    by_cases hblt : blt k d.key = true
    · rw [if_pos hblt, ihl hfl]
    · rw [if_neg hblt, ihr hfr]

lemma nodeDel_notFound_absent {t : JTree} {k : Bytes} (ho : Ordered t = true)
    (hdel : nodeDel t k = .error .notFound) : containsB t k = false := by
  induction t with
  | nil => rfl
  | node d l r ihl ihr =>
    obtain ⟨hl, hr, hol, hor⟩ := ordered_node.mp ho
    rw [nodeDel.eq_def] at hdel
    simp only [] at hdel
    by_cases hk : k = d.key
    · exfalso
      rw [if_pos hk] at hdel
      by_cases hleaf : l = JTree.nil ∧ r = JTree.nil
      · rw [if_pos hleaf] at hdel
        cases hdel
      · rw [if_neg hleaf] at hdel
        by_cases hlt : d.rightHeight < d.leftHeight
        · simp only [if_pos hlt] at hdel
          cases r with
          | node od ol orr => cases hdel
          | nil =>
            cases l with
            | nil => cases hdel
            | node sd sl sr => cases hdel
        · simp only [if_neg hlt] at hdel
          cases l with
          | node od ol orr => cases hdel
          | nil =>
            cases r with
            | nil => cases hdel
            | node sd sl sr => cases hdel
    · rw [if_neg hk] at hdel
      simp only [containsB, Bool.or_eq_false_iff]
      by_cases hblt : blt k d.key = true
      · rw [if_pos hblt] at hdel
        cases hdc : nodeDel l k with
        | ok c2 => rw [hdc] at hdel; cases hdel
        | error e =>
          rw [hdc] at hdel
          cases hdel
          have hfl := ihl hol hdc
          have hfr : containsB r k = false := by
            by_contra hcon
            have h2 := allKeysB_contains hr
              (show containsB r k = true by simpa using hcon)
            have h3 : blt d.key k = true := by simpa using h2
            exact absurd hblt (by simp [blt_asymm h3])
          exact ⟨⟨by simpa using hk, hfl⟩, hfr⟩
      · rw [if_neg hblt] at hdel
        cases hdc : nodeDel r k with
        | ok c2 => rw [hdc] at hdel; cases hdel
        | error e =>
          rw [hdc] at hdel
          cases hdel
          have hfr := ihr hor hdc
          have hfl : containsB l k = false := by
            by_contra hcon
            have h2 := allKeysB_contains hl
              (show containsB l k = true by simpa using hcon)
            exact absurd (by simpa using h2) hblt
          exact ⟨⟨by simpa using hk, hfl⟩, hfr⟩

lemma searchT_ne_none : ∀ (t : JTree) (k : Bytes), t ≠ .nil → searchT t k ≠ none := by
  intro t
  induction t with
  | nil => exact fun k h => absurd rfl h
  | node d l r ihl ihr =>
    intro k _
    rw [searchT.eq_def]
    dsimp only
    by_cases hk : k = d.key
    · rw [if_pos hk]; simp
    · rw [if_neg hk]
      by_cases hblt : blt k d.key = true
      · rw [if_pos hblt]
        cases l with
        | nil => simp
        | node dl ll rl => exact ihl k (by simp)
      · rw [if_neg hblt]
        cases r with
        | nil => simp
        | node dr lr rr => exact ihr k (by simp)

lemma searchT_mem {t : JTree} {k : Bytes} {e : NodeRec} {p : Bytes → Bool}
    (hs : searchT t k = some e) (ha : allKeysB t p = true) : p e.key = true := by
  induction t generalizing e with
  | nil => simp [searchT] at hs
  | node d l r ihl ihr =>
    obtain ⟨h1, h2, h3⟩ := allKeysB_node.mp ha
    rw [searchT.eq_def] at hs
    dsimp only at hs
    by_cases hk : k = d.key
    · rw [if_pos hk] at hs; cases hs; exact h1
    · rw [if_neg hk] at hs
      by_cases hblt : blt k d.key = true
      · rw [if_pos hblt] at hs
        cases l with
        | nil => cases hs; exact h1
        | node dl ll rl => exact ihl hs h2
      · rw [if_neg hblt] at hs
        cases r with
        | nil => cases hs; exact h1
        | node dr lr rr => exact ihr hs h3

lemma allKeysB_ne_of_not_contains {t : JTree} {k : Bytes}
    (hf : containsB t k = false) : allKeysB t (fun x => !(x == k)) = true := by
  induction t with
  | nil => rfl
  | node d l r ihl ihr =>
    simp only [containsB, Bool.or_eq_false_iff, beq_eq_false_iff_ne, ne_eq] at hf
    obtain ⟨⟨hne, hfl⟩, hfr⟩ := hf
    refine allKeysB_node.mpr ⟨?_, ihl hfl, ihr hfr⟩
    simpa using fun h => hne h.symm

/-- C8: on every non-empty reachable tree, `delete(k)` raises the
not-found error exactly when `k` is absent, and any failed delete leaves
the committed state unchanged (the staged transaction is only committed
on success). -/
theorem c8_delete_not_found (ops : List Op) (k : Bytes)
    (hne : applyOps ops ≠ JTree.nil) :
    (treeDel (applyOps ops) k = .error .notFound ↔
      containsB (applyOps ops) k = false) ∧
    (∀ e, treeDel (applyOps ops) k = .error e →
      applyOp (applyOps ops) (.del k) = applyOps ops) := by
  have ho := ordered_applyOps ops
  refine ⟨?_, ?_⟩
  · cases htt : applyOps ops with
    | nil => exact absurd htt hne
    | node d l r =>
      rw [htt] at ho
      exact ⟨fun h => nodeDel_notFound_absent ho h, fun h => nodeDel_absent h⟩
  · intro e h
    dsimp only [applyOp]
    rw [h]

/-- Witness for C8: deleting the absent key `"b"` from the one-key tree
`{a}` raises not-found and leaves the state unchanged. -/
theorem c8_delete_not_found_witness :
    (treeDel (applyOps [.put (bytes "a") (bytes "A")]) (bytes "b") = .error .notFound ↔
      containsB (applyOps [.put (bytes "a") (bytes "A")]) (bytes "b") = false) ∧
    (∀ e, treeDel (applyOps [.put (bytes "a") (bytes "A")]) (bytes "b") = .error e →
      applyOp (applyOps [.put (bytes "a") (bytes "A")]) (.del (bytes "b")) =
        applyOps [.put (bytes "a") (bytes "A")]) :=
  c8_delete_not_found [.put (bytes "a") (bytes "A")] (bytes "b") (by decide)

/-- C10: `get(k)` on the empty tree returns `null` (no error), while
`get(k)` on a non-empty tree without `k` throws the not-found error: the
absent-key behaviour differs between the two cases at the public
interface. -/
theorem c10_get_empty_vs_absent (ops : List Op) (k : Bytes)
    (hne : applyOps ops ≠ JTree.nil) (habs : containsB (applyOps ops) k = false) :
    treeGet JTree.nil k = .nullVal ∧ treeGet (applyOps ops) k = .errNotFound := by
  refine ⟨rfl, ?_⟩
  cases htt : applyOps ops with
  | nil => exact absurd htt hne
  | node d l r =>
    rw [htt] at habs
    rw [treeGet.eq_def]
    dsimp only
    cases hs : searchT (.node d l r) k with
    | none => exact absurd hs (searchT_ne_none _ k (by simp))
    | some e =>
      have hne2 : ¬ e.key = k := by
        simpa using searchT_mem hs (allKeysB_ne_of_not_contains habs)
      dsimp only
      rw [if_neg hne2]

/-- Witness for C10: the empty tree yields `null` for `"b"`, while the
one-key tree `{a}` throws not-found for `"b"`. -/
theorem c10_get_empty_vs_absent_witness :
    treeGet JTree.nil (bytes "b") = .nullVal ∧
    treeGet (applyOps [.put (bytes "a") (bytes "A")]) (bytes "b") = .errNotFound :=
  c10_get_empty_vs_absent [.put (bytes "a") (bytes "A")] (bytes "b")
    (by decide) (by decide)

/-! ## Successor choice of the ID-addressed delete -/

lemma rootKey_setChildNR (d : NodeRec) (l r : JTree) (b : Bool) (c : JTree) :
    rootKey (setChildNR d l r b c) = some d.key := by
  cases b <;> simp [setChildNR, linkChild, rootKey]

lemma rootKey_putNodeV1 {d : NodeRec} {l r sub t2 : JTree}
    (h : putNodeV1 (.node d l r) sub = .ok t2) : rootKey t2 = some d.key := by
  rw [putNodeV1.eq_def] at h
  dsimp only at h
  cases sub with
  | nil => cases h; rfl
  | node sd ssl ssr =>
    simp only [] at h
    by_cases hk : sd.key = d.key
    · rw [if_pos hk] at h; cases h
    · rw [if_neg hk] at h
      by_cases hblt : blt sd.key d.key = true
      · rw [if_pos hblt] at h
        cases hc : putNodeV1 l (.node sd ssl ssr) with
        | error e => rw [hc] at h; cases h
        | ok l2 => rw [hc] at h; cases h; exact rootKey_setChildNR d l r true l2
      · rw [if_neg hblt] at h
        cases hc : putNodeV1 r (.node sd ssl ssr) with
        | error e => rw [hc] at h; cases h
        | ok r2 => rw [hc] at h; cases h; exact rootKey_setChildNR d l r false r2

/-- C5 (amended): when the ID-addressed `delete` (the revision whose
two-child deletion completes) removes a node with two children, the
promoted successor is the root of the side with the *strictly greater*
recorded height — and on an equal-height tie it is the *right* child
(`let left = this.leftHeight > this.rightHeight` is false on a tie), not
the left one as the spec claims. -/
theorem c5_successor_choice (k : Bytes) (d ld rd : NodeRec) (ll lr rl rr : JTree)
    (t2 : JTree) (hk : k = d.key)
    (hdel : nodeDelV1 (.node d (.node ld ll lr) (.node rd rl rr)) k = .ok t2) :
    rootKey t2 = some (if d.rightHeight < d.leftHeight then ld.key else rd.key) := by
  rw [nodeDelV1.eq_def] at hdel
  dsimp only at hdel
  rw [if_pos hk] at hdel
  rw [if_neg (by simp)] at hdel
  by_cases hlt : d.rightHeight < d.leftHeight
  · simp only [if_pos hlt] at hdel
    rw [if_pos hlt]
    cases hc : putNodeV1 (.node ld ll lr) (.node rd rl rr) with
    | ok s2 => rw [hc] at hdel; cases hdel; exact rootKey_putNodeV1 hc
    | error e => rw [hc] at hdel; cases hdel
  · simp only [if_neg hlt] at hdel
    rw [if_neg hlt]
    cases hc : putNodeV1 (.node rd rl rr) (.node ld ll lr) with
    | ok s2 => rw [hc] at hdel; cases hdel; exact rootKey_putNodeV1 hc
    | error e => rw [hc] at hdel; cases hdel

/-- Witness for C5: deleting the root of the concrete equal-height
two-child tree promotes the right child's key `[3]`. -/
theorem c5_successor_choice_witness : rootKey v1TieResult = some [3] := by
  have h := c5_successor_choice [2]
    { key := [2], value := [], kvHash := [], hash := [], leftHeight := 1, rightHeight := 1 }
    { key := [1], value := [], kvHash := [], hash := [], leftHeight := 0, rightHeight := 0 }
    { key := [3], value := [], kvHash := [], hash := [], leftHeight := 0, rightHeight := 0 }
    .nil .nil .nil .nil v1TieResult rfl rfl
  simpa using h

/-- Counterexample to C5 as stated: on an equal-height tie the promoted
successor is the right child (`[3]`), not the left child (`[1]`). -/
theorem c5_counterexample :
    (recAt v1TieWitness [2]).map (fun d => (d.leftHeight, d.rightHeight)) =
      some (1, 1) ∧
    rootKey (okOr (nodeDelV1 v1TieWitness [2])) = some [3] ∧
    rootKey (okOr (nodeDelV1 v1TieWitness [2])) ≠ some [1] := by
  decide

/-- Counterexample to C3 as stated: inserting the same two pairs in the
two possible orders yields the same in-order key/value listing but
different root hashes (the arrangement differs: each insertion order
leaves a different root). -/
theorem c3_counterexample :
    kvList (applyOps [.put (bytes "a") (bytes "A"), .put (bytes "b") (bytes "B")]) =
      kvList (applyOps [.put (bytes "b") (bytes "B"), .put (bytes "a") (bytes "A")]) ∧
    rootHash (applyOps [.put (bytes "a") (bytes "A"), .put (bytes "b") (bytes "B")]) ≠
      rootHash (applyOps [.put (bytes "b") (bytes "B"), .put (bytes "a") (bytes "A")]) := by
  decide

/-! ## Verifier control flow -/

/-- C6: `verify` fails with the root-mismatch error
(`Proof does not match expected root hash`) whenever the root hash
derived from the proof differs from the expected one, and returns
key/value results only when the derived hash equals the expected one. -/
theorem c6_root_mismatch (H2 : Bytes → Bytes) (expected : Bytes) (proof : PTree)
    (q : Bytes) :
    (getHash H2 proof ≠ expected → verify H2 expected proof q = .error .rootMismatch) ∧
    (∀ out, verify H2 expected proof q = .ok out → getHash H2 proof = expected) := by
  constructor
  · intro h
    unfold verify
    rw [if_pos h]
  · intro out hok
    by_cases h : getHash H2 proof = expected
    · exact h
    · unfold verify at hok
      rw [if_pos h] at hok
      cases hok

/-- Witness for C6: the concrete two-node proof is rejected against a
wrong expected root hash. -/
theorem c6_root_mismatch_witness :
    verify (fun x => x.take 4) [] c7proof (bytes "a") = .error .rootMismatch :=
  (c6_root_mismatch (fun x => x.take 4) [] c7proof (bytes "a")).1 (by decide)

/-- C7: on a matching multi-node range proof whose value-node run and
in-range result set are non-empty, verification fails with `First key
greater than beginning of range` exactly when the first key-bearing node
lies at or past the start of the range without being an edge node, and
fails with `Last key less than end of range` exactly when that first
check passes and the last key-bearing node lies at or before the end of
the range without being an edge node. -/
theorem c7_range_gap (H2 : Bytes → Bytes) (expected : Bytes) (proof : PTree)
    (q : Bytes) (nodes : List FlatNode) (f l : FlatNode)
    (hr : getHash H2 proof = expected)
    (hflat : flattenT proof [] = nodes)
    (hlen : 2 ≤ nodes.length)
    (hvf : (valueNodesOf nodes).head? = some f)
    (hvl : (valueNodesOf nodes).getLast? = some l)
    (hres : ((valueNodesOf nodes).filter (fun n =>
        bge (keyOf n) (dotB ++ q) &&
        ble (keyOf n) (if q = [] then slashB else dotB ++ q ++ slashB))).isEmpty
      = false) :
    (verify H2 expected proof q = .error .rangeGapFirst ↔
      (bge (keyOf f) (dotB ++ q) && !f.isEdge) = true) ∧
    (verify H2 expected proof q = .error .rangeGapLast ↔
      (bge (keyOf f) (dotB ++ q) && !f.isEdge) = false ∧
      (ble (keyOf l) (if q = [] then slashB else dotB ++ q ++ slashB) && !l.isEdge)
        = true) := by
  unfold verify
  rw [if_neg (by simp [hr]), hflat]
  generalize htk : (if q = [] then slashB else dotB ++ q ++ slashB) = toK
  rw [htk] at hres
  cases nodes with
  | nil => simp at hlen
  | cons a t =>
    cases t with
    | nil => simp at hlen
    | cons b t2 =>
      dsimp only [verifyRest]
      rw [if_neg (by simp [hres])]
      by_cases c1 : (bge (keyOf f) (dotB ++ q) && !f.isEdge) = true
      · have hcr : checkRange (dotB ++ q) toK (valueNodesOf (a :: b :: t2)) =
            .error .rangeGapFirst := by
          unfold checkRange
          rw [hvf, hvl]
          dsimp only
          rw [if_pos c1]
        rw [hcr]
        refine ⟨⟨fun _ => c1, fun _ => rfl⟩, ⟨fun h => ?_, fun h => ?_⟩⟩
        · cases h
        · exact absurd c1 (by simp [h.1])
      · have c1f : (bge (keyOf f) (dotB ++ q) && !f.isEdge) = false := by
          simpa using c1
        by_cases c2 : (ble (keyOf l) toK && !l.isEdge) = true
        · have hcr : checkRange (dotB ++ q) toK (valueNodesOf (a :: b :: t2)) =
              .error .rangeGapLast := by
            unfold checkRange
            rw [hvf, hvl]
            dsimp only
            rw [if_neg (by simp [c1f]), if_pos c2]
          rw [hcr]
          refine ⟨⟨fun h => ?_, fun h => absurd h c1⟩, ⟨fun _ => ⟨c1f, c2⟩, fun _ => rfl⟩⟩
          cases h
        · have hcr : checkRange (dotB ++ q) toK (valueNodesOf (a :: b :: t2)) =
              .ok () := by
            unfold checkRange
            rw [hvf, hvl]
            dsimp only
            rw [if_neg (by simp [c1f]), if_neg (by simpa using c2)]
          rw [hcr]
          refine ⟨⟨fun h => ?_, fun h => absurd h c1⟩, ⟨fun h => ?_, fun h => absurd h.2 c2⟩⟩
          · cases h
          · cases h

/-- Witness for C7: on the concrete two-node proof — value nodes `"."`
and `".a"`, neither an edge node — the query `"a"` (range `[".a", ".a/"]`)
passes the first-key check and fails with the last-key range-gap error,
while the empty query (range `[".", "/"]`) fails with the first-key
range-gap error. -/
theorem c7_range_gap_witness :
    verify (fun x => x.take 4) (getHash (fun x => x.take 4) c7proof) c7proof
      (bytes "a") = .error .rangeGapLast ∧
    verify (fun x => x.take 4) (getHash (fun x => x.take 4) c7proof) c7proof
      [] = .error .rangeGapFirst := by
  constructor
  · exact (c7_range_gap (fun x => x.take 4) _ c7proof (bytes "a")
      (flattenT c7proof []) ⟨some dotB, bytes "0", false⟩
      ⟨some (dotB ++ bytes "a"), bytes "1", false⟩
      rfl rfl (by decide) (by decide) (by decide) (by decide)).2.mpr
      (by decide)
  · exact (c7_range_gap (fun x => x.take 4) _ c7proof []
      (flattenT c7proof []) ⟨some dotB, bytes "0", false⟩
      ⟨some (dotB ++ bytes "a"), bytes "1", false⟩
      rfl rfl (by decide) (by decide) (by decide) (by decide)).1.mpr
      (by decide)

/-- C9: iteration does not reach its end marker on every reachable tree.
After the completed run `put a`, `put b`, `delete a`, the only key is
`b` (the stored root), but the stored record of `b` still names the
deleted node `a` as its parent — the root promotion inside `delete`
mutates the successor's `parentKey` in memory without saving it — so
`next()` from `b` (the least and last node, fetched from the store)
crashes reading the missing parent record instead of yielding the end of
iteration. -/
theorem c9_next_crashes :
    c9state.rootKey = bytes "b" ∧
    sGet c9state.store (bytes "a") = none ∧
    (sGet c9state.store (bytes "b")).map SNode.parentKey = some (bytes "a") ∧
    exceptOk (match sGet c9state.store (bytes "b") with
      | some n => stepS 10 c9state.store (bytes "b", n) false
      | none => .ok none) = false := by
  decide

end Merk
